import Mathlib

/-!
The gitql runtime: a shallow embedding of `runtime/runtime.go`.

The Go globals `builder` and `boolRegister` are passed explicitly.  The
libgit2 objects are records of what their accessors return, a Go map is the
list of its bindings, and `log.Fatal*` and run-time panics are the error side
of `Except`.  Package `parser` and the visitor methods live outside
`runtime.go`; what the runtime uses of them is taken as a parameter.
-/

namespace Gitql

/-! ## Constants -/

def WALK_COMMITS : Nat := 1
def WALK_TREES : Nat := 2
def WALK_REFERENCES : Nat := 3
def WALK_REMOTES : Nat := 4

def REFERENCE_TYPE_BRANCH : String := "branch"
def REFERENCE_TYPE_REMOTE : String := "remote"
def REFERENCE_TYPE_TAG : String := "tag"

/-! ## Go maps -/

/-- A Go map with string keys: the list of its bindings, one per key, in the
order a `range` over it yields them. -/
abbrev GoMap (β : Type) := List (String × β)

/-- The read `m[k]`, with `none` for an absent key. -/
def GoMap.lookup {β : Type} (m : GoMap β) (k : String) : Option β :=
  match m with
  | [] => none
  | (k', v) :: rest => if k' = k then some v else GoMap.lookup rest k

/-- The write `m[k] = v`: an existing binding of `k` is overwritten in place,
a new one is added. -/
def GoMap.store {β : Type} (m : GoMap β) (k : String) (v : β) : GoMap β :=
  match m with
  | [] => [(k, v)]
  | (k', v') :: rest =>
    if k' = k then (k, v) :: rest else (k', v') :: GoMap.store rest k v

/-- The keys of a map. -/
def GoMap.keys {β : Type} (m : GoMap β) : List String := m.map Prod.fst

/-- The idiom `key := ""; for key, _ = range m { break }`: the first key the
range yields, the empty string for an empty map. -/
def GoMap.rangeFirstKey {β : Type} (m : GoMap β) : String :=
  match m with
  | [] => ""
  | (k, _) :: _ => k

/-! ## Errors -/

/-- The Go struct `RuntimeError`. -/
structure RuntimeError where
  code : Nat
  message : String
deriving DecidableEq, Repr

def throwRuntimeError (message : String) (code : Nat) : RuntimeError :=
  { code := code, message := message }

/-- How a run ends early: `log.Fatalln` / `log.Fatalf` with the logged text, or
a Go run-time panic. -/
inductive Failure where
  | fatal (message : String)
  | panic (message : String)
deriving DecidableEq, Repr

/-! ## Repository objects -/

/-- A `git.Signature`; `When` is the time as `Format(parser.Time_YMDHIS)`
renders it. -/
structure Signature where
  Name : String
  Email : String
  When : String
deriving DecidableEq, Repr

/-- A `git.Commit`: `Id` is `Id().String()`. -/
structure Commit where
  Id : String
  Author : Signature
  Committer : Signature
  Message : String
deriving DecidableEq, Repr

/-- A `git.Reference`: `Target` is `none` for a nil target, else its string. -/
structure Reference where
  Shorthand : String
  Name : String
  Target : Option String
  IsBranch : Bool
  IsRemote : Bool
  IsTag : Bool
deriving DecidableEq, Repr

/-- A `git.Remote`: `OwnerPath` is the path of `Owner()`. -/
structure Remote where
  Name : String
  Url : String
  PushUrl : String
  OwnerPath : String
deriving DecidableEq, Repr

/-- The `git.Repository` capabilities the runtime calls: the commits the
revision walk from HEAD yields in time order, the references the iterator
yields until its first error, the remote names, and the loading of a remote. -/
structure Repository where
  Walk : List Commit
  NewReferenceIterator : Except String (List Reference)
  ListRemotes : Except String (List String)
  LoadRemote : String → Except String Remote

/-! ## Builder -/

structure proxyTable where
  table : String
  fields : GoMap String
deriving DecidableEq, Repr

/-- A row: `none` is the nil map, the zero value `make([]tableRow, n)` fills
a slice with. -/
abbrev tableRow := Option (GoMap String)

structure GitBuilder where
  tables : GoMap String
  possibleTables : GoMap (List String)
  proxyTables : GoMap proxyTable
  repo : Repository
  currentWalkType : Nat
  currentCommit : Option Commit
  currentReference : Option Reference
  currentRemote : Option Remote

/-! ## Query syntax (package parser) -/

/-- A filter expression, identified with the value that visiting it leaves in
`boolRegister` (set to true beforehand), as a function of the builder the
visitor reads. -/
abbrev NodeExpr := GitBuilder → Bool

structure NodeOrder where
  Field : String
  Asc : Bool
deriving DecidableEq, Repr

structure NodeSelect where
  WildCard : Bool
  Fields : List String
  Tables : List String
  Where : NodeExpr
  Order : Option NodeOrder
  Limit : Int

structure NodeProgram where
  Path : String
  Child : NodeSelect

/-- The `Assertion` methods of `parser.NodeGreater` and `parser.NodeSmaller`. -/
structure Assertions where
  Greater : String → String → Bool
  Smaller : String → String → Bool

/-- The visitor method `Visit`, which runs on the fresh builder before the
walk. -/
structure RuntimeVisitor where
  Visit : NodeProgram → GitBuilder → Except RuntimeError GitBuilder

/-! ## Schema -/

def PossibleTables : GoMap (List String) :=
  [ ("commits",
      ["hash", "date", "author", "author_email", "committer", "committer_email",
       "message", "full_message"]),
    ("refs", ["name", "full_name", "type", "hash"]),
    ("remotes", ["name", "url", "push_url", "owner"]),
    ("tags", ["name", "full_name", "hash"]),
    ("branches", ["name", "full_name", "hash"]) ]

def proxyTableEntry (t : String) (f : GoMap String) : proxyTable :=
  { table := t, fields := f }

/-- The builder `GetGitBuilder` returns for an opened repository. -/
def GetGitBuilder (repo : Repository) : GitBuilder :=
  { tables := [],
    possibleTables := PossibleTables,
    proxyTables :=
      [ ("tags", proxyTableEntry "refs" [("type", "tag")]),
        ("branches", proxyTableEntry "refs" [("type", "branch")]) ],
    repo := repo,
    currentWalkType := 0,
    currentCommit := none,
    currentReference := none,
    currentRemote := none }

def GitBuilder.setCommit (g : GitBuilder) (object : Option Commit) : GitBuilder :=
  { g with currentCommit := object }

def GitBuilder.setReference (g : GitBuilder) (object : Option Reference) : GitBuilder :=
  { g with currentReference := object }

def GitBuilder.setRemote (g : GitBuilder) (object : Option Remote) : GitBuilder :=
  { g with currentRemote := object }

def GitBuilder.isValidTable (g : GitBuilder) (tableName : String) : Except RuntimeError Unit :=
  match GoMap.lookup g.possibleTables tableName with
  | none => .error (throwRuntimeError ("Table '" ++ tableName ++ "' not found") 0)
  | some _ => .ok ()

def GitBuilder.isProxyTable (g : GitBuilder) (tableName : String) : Bool :=
  (GoMap.lookup g.proxyTables tableName).isSome

def GitBuilder.UseFieldFromTable (g : GitBuilder) (field : String) (tableName : String) :
    Except RuntimeError Unit :=
  match g.isValidTable tableName with
  | .error err => .error err
  | .ok _ =>
    if field = "*" then .ok ()
    else
      let table := (GoMap.lookup g.possibleTables tableName).getD []
      if table.any (fun t => t == field) then .ok ()
      else .error (throwRuntimeError
        ("Table '" ++ tableName ++ "' has not field '" ++ field ++ "'") 0)

/-- The method `WithTable`; the second test, `possibleTables[tableName] == nil`,
can only fire for a key bound to a nil slice, which a list value does not
represent, so on this model it is implied by `isValidTable`. -/
def GitBuilder.WithTable (g : GitBuilder) (tableName : String) (aliasName : String) :
    Except RuntimeError GitBuilder :=
  match g.isValidTable tableName with
  | .error err => .error err
  | .ok _ =>
    match GoMap.lookup g.possibleTables tableName with
    | none => .error (throwRuntimeError ("Table '" ++ tableName ++ "' not found") 0)
    | some _ =>
      let aliasName := if aliasName = "" then tableName else aliasName
      .ok { g with tables := GoMap.store g.tables aliasName tableName }

/-! ## Field extractors -/

/-- The block at the head of every extractor and of `orderTable`:
`key := ""; for key, _ = range builder.tables { break }`, then
`UseFieldFromTable(identifier, key)`, with `log.Fatalln(err)` on an error. -/
def checkField (g : GitBuilder) (identifier : String) : Except Failure Unit :=
  let table := GoMap.rangeFirstKey g.tables
  match g.UseFieldFromTable identifier table with
  | .error err => .error (.fatal err.message)
  | .ok _ => .ok ()

/-- A method call on a pointer: a nil receiver panics. -/
def deref {α : Type} (object : Option α) : Except Failure α :=
  match object with
  | none => .error (.panic "invalid memory address or nil pointer dereference")
  | some o => .ok o

/-- The byte length of a text in UTF-8. -/
def byteLen : List Char → Nat
  | [] => 0
  | c :: cs => c.utf8Size + byteLen cs

/-- The scan of `strings.IndexRune`: `off` is the byte offset of the text
left to scan. -/
def IndexRune.scan (r : Char) : List Char → Nat → Int
  | [], _ => -1
  | c :: cs, off => if c = r then (off : Int) else IndexRune.scan r cs (off + c.utf8Size)

/-- The call `strings.IndexRune(s, r)`: the byte offset of the first `r` in
`s`, or -1. -/
def IndexRune (s : String) (r : Char) : Int := IndexRune.scan r s.data 0

/-- The characters that lie within the first `n` bytes of a text. -/
def takeBytes : List Char → Nat → List Char
  | [], _ => []
  | c :: cs, n => if c.utf8Size ≤ n then c :: takeBytes cs (n - c.utf8Size) else []

/-- The slice `s[0:idx]`, for a byte offset `idx` on a character boundary. -/
def slicePrefix (s : String) (idx : Int) : String := String.mk (takeBytes s.data idx.toNat)

/-- The `message` case of `metadataCommit`. -/
def firstLine (message : String) : String :=
  let idx := IndexRune message (Char.ofNat 10)
  if idx ≠ -1 then slicePrefix message idx else message

def metadataCommit (g : GitBuilder) (identifier : String) (object : Option Commit) :
    Except Failure String :=
  match checkField g identifier with
  | .error e => .error e
  | .ok _ =>
    if identifier = "hash" then (deref object).map (fun o => o.Id)
    else if identifier = "author" then (deref object).map (fun o => o.Author.Name)
    else if identifier = "author_email" then (deref object).map (fun o => o.Author.Email)
    else if identifier = "committer" then (deref object).map (fun o => o.Committer.Name)
    else if identifier = "committer_email" then (deref object).map (fun o => o.Committer.Email)
    else if identifier = "date" then (deref object).map (fun o => o.Committer.When)
    else if identifier = "full_message" then (deref object).map (fun o => o.Message)
    else if identifier = "message" then (deref object).map (fun o => firstLine o.Message)
    else .error (.fatal ("Field " ++ identifier ++ " not implemented yet \n"))

def metadataReference (g : GitBuilder) (identifier : String) (object : Option Reference) :
    Except Failure String :=
  match checkField g identifier with
  | .error e => .error e
  | .ok _ =>
    if identifier = "name" then (deref object).map (fun o => o.Shorthand)
    else if identifier = "full_name" then (deref object).map (fun o => o.Name)
    else if identifier = "hash" then
      (deref object).map (fun o =>
        match o.Target with
        | none => "NULL"
        | some target => target)
    else if identifier = "type" then
      match deref object with
      | .error e => .error e
      | .ok o =>
        if o.IsBranch then .ok REFERENCE_TYPE_BRANCH
        else if o.IsRemote then .ok REFERENCE_TYPE_REMOTE
        else if o.IsTag then .ok REFERENCE_TYPE_TAG
        else .error (.fatal ("Unexcpeted object " ++ o.Name ++ "\n"))
    else .error (.fatal ("Field '" ++ identifier ++ "' not implemented yet\n"))

def metadataRemote (g : GitBuilder) (identifier : String) (object : Option Remote) :
    Except Failure String :=
  match checkField g identifier with
  | .error e => .error e
  | .ok _ =>
    if identifier = "name" then (deref object).map (fun o => o.Name)
    else if identifier = "url" then (deref object).map (fun o => o.Url)
    else if identifier = "push_url" then (deref object).map (fun o => o.PushUrl)
    else if identifier = "owner" then (deref object).map (fun o => o.OwnerPath)
    else .error (.fatal ("Field " ++ identifier ++ " not implemented yet \n"))

def metadataTree (_identifier : String) : String := ""

def metadata (g : GitBuilder) (identifier : String) : Except Failure String :=
  if g.currentWalkType = WALK_COMMITS then metadataCommit g identifier g.currentCommit
  else if g.currentWalkType = WALK_REFERENCES then
    metadataReference g identifier g.currentReference
  else if g.currentWalkType = WALK_REMOTES then metadataRemote g identifier g.currentRemote
  else .error (.fatal "GOD!")

/-! ## Result orderer -/

/-- The key `fmt.Sprintf("%v", row[field])`: the stored string, `<nil>` when
the row has no such field. -/
def sprintCell (row : tableRow) (field : String) : String :=
  match row with
  | none => "<nil>"
  | some m => (GoMap.lookup m field).getD "<nil>"

/-- The three assignments `aux := rows[j]; rows[j] = rows[i]; rows[i] = aux`. -/
def swapRows (rows : List tableRow) (i j : Nat) : List tableRow :=
  let aux := rows.getD j none
  let rows := rows.set j (rows.getD i none)
  rows.set i aux

/-- The inner loop of `orderTable` for one `i`: `row` is the range variable of
the outer loop, read once when its iteration starts; `rowWalk` is read from
the slice as it is when index `j` is reached. -/
def orderInner (orderer : String → String → Bool) (field : String) (i : Nat)
    (row : tableRow) (n : Nat) (rows : List tableRow) : List tableRow :=
  (List.range n).foldl
    (fun rows j =>
      let rowWalk := rows.getD j none
      if orderer (sprintCell rowWalk field) (sprintCell row field) then swapRows rows i j
      else rows)
    rows

/-- The two nested `range rows` loops of `orderTable`. -/
def orderLoops (orderer : String → String → Bool) (field : String)
    (rows : List tableRow) : List tableRow :=
  (List.range rows.length).foldl
    (fun rs i => orderInner orderer field i (rs.getD i none) rows.length rs)
    rows

def orderTable (cmp : Assertions) (g : GitBuilder) (rows : List tableRow)
    (order : Option NodeOrder) : Except Failure (List tableRow) :=
  match order with
  | none => .ok rows
  | some order =>
    let orderer := if order.Asc then cmp.Greater else cmp.Smaller
    let field := order.Field
    match checkField g field with
    | .error e => .error e
    | .ok _ => .ok (orderLoops orderer field rows)

/-! ## Row pipeline -/

/-- What a walker hands to `printTable`. -/
structure Printed where
  rows : List tableRow
  fields : List String
deriving DecidableEq, Repr

def printTable (rows : List tableRow) (fields : List String) : Printed :=
  { rows := rows, fields := fields }

/-- The variables a walker loop updates. -/
structure WalkVars where
  builder : GitBuilder
  rows : List tableRow
  counter : Int

/-- The index expression `s.Tables[0]`. -/
def firstTable (s : NodeSelect) : Except Failure String :=
  match s.Tables with
  | [] => .error (.panic "index out of range")
  | t :: _ => .ok t

/-- The statements `fields := s.Fields; if s.WildCard { fields =
builder.possibleTables[s.Tables[0]] }`; a missing key reads as the nil slice. -/
def selectFields (g : GitBuilder) (s : NodeSelect) : Except Failure (List String) :=
  if s.WildCard then
    match firstTable s with
    | .error e => .error e
    | .ok t => .ok ((GoMap.lookup g.possibleTables t).getD [])
  else .ok s.Fields

/-- The allocation `make([]tableRow, s.Limit)`: `Limit` nil rows. -/
def makeRows (limit : Int) : Except Failure (List tableRow) :=
  if limit < 0 then .error (.panic "makeslice: len out of range")
  else .ok (List.replicate limit.toNat none)

/-- The slice expression `rows[low:]`. -/
def sliceFrom (rows : List tableRow) (low : Int) : Except Failure (List tableRow) :=
  if low < 0 ∨ (rows.length : Int) < low then .error (.panic "slice bounds out of range")
  else .ok (rows.drop low.toNat)

/-- The loop `newRow := make(tableRow); for _, f := range fields { newRow[f] =
extract(f) }`, from the row built so far. -/
def fillRow (extract : String → Except Failure String) :
    List String → GoMap String → Except Failure (GoMap String)
  | [], newRow => .ok newRow
  | f :: rest, newRow =>
    match extract f with
    | .error e => .error e
    | .ok v => fillRow extract rest (GoMap.store newRow f v)

/-- The closure `fn` of `walkCommits`; the flag is its return value. -/
def walkCommits.fn (s : NodeSelect) (fields : List String) (st : WalkVars)
    (object : Commit) : Except Failure (WalkVars × Bool) :=
  let builder := st.builder.setCommit (some object)
  let boolRegister := s.Where builder
  if boolRegister then
    match fillRow (fun f => metadataCommit builder f (some object)) fields [] with
    | .error e => .error e
    | .ok newRow =>
      let rows := st.rows ++ [some newRow]
      let counter := st.counter + 1
      if counter > s.Limit then .ok ({ builder := builder, rows := rows, counter := counter }, false)
      else .ok ({ builder := builder, rows := rows, counter := counter }, true)
  else
    if st.counter > s.Limit then .ok ({ st with builder := builder }, false)
    else .ok ({ st with builder := builder }, true)

/-- The call `builder.walk.Iterate(fn)` on the commits the walk yields: `fn` is
called on each in turn until it returns false. -/
def Iterate (fn : WalkVars → Commit → Except Failure (WalkVars × Bool)) :
    List Commit → WalkVars → Except Failure WalkVars
  | [], st => .ok st
  | object :: rest, st =>
    match fn st object with
    | .error e => .error e
    | .ok (st', continues) => if continues then Iterate fn rest st' else .ok st'

def walkCommits (cmp : Assertions) (n : NodeProgram) (builder : GitBuilder) :
    Except Failure Printed :=
  let s := n.Child
  match selectFields builder s with
  | .error e => .error e
  | .ok fields =>
    match makeRows s.Limit with
    | .error e => .error e
    | .ok rows =>
      match Iterate (walkCommits.fn s fields) builder.repo.Walk
          { builder := builder, rows := rows, counter := 1 } with
      | .error e => .error e
      | .ok st =>
        match sliceFrom st.rows ((st.rows.length : Int) - st.counter + 1) with
        | .error e => .error e
        | .ok rowsSliced =>
          match orderTable cmp st.builder rowsSliced s.Order with
          | .error e => .error e
          | .ok rowsSliced => .ok (printTable rowsSliced fields)

/-- The `for` loop of `walkReferences` over the references the iterator
yields. -/
def walkReferences.loop (s : NodeSelect) : List Reference → WalkVars → Except Failure WalkVars
  | [], st => .ok st
  | object :: rest, st =>
    let builder := st.builder.setReference (some object)
    let boolRegister := s.Where builder
    if boolRegister then
      match selectFields builder s with
      | .error e => .error e
      | .ok fields =>
        match fillRow (fun f => metadataReference builder f (some object)) fields [] with
        | .error e => .error e
        | .ok newRow =>
          let rows := st.rows ++ [some newRow]
          let counter := st.counter + 1
          if counter > s.Limit then .ok { builder := builder, rows := rows, counter := counter }
          else walkReferences.loop s rest { builder := builder, rows := rows, counter := counter }
    else walkReferences.loop s rest { st with builder := builder }

def walkReferences (cmp : Assertions) (n : NodeProgram) (builder : GitBuilder) :
    Except Failure Printed :=
  let s := n.Child
  match builder.repo.NewReferenceIterator with
  | .error err => .error (.fatal err)
  | .ok iterator =>
    match selectFields builder s with
    | .error e => .error e
    | .ok fields =>
      match makeRows s.Limit with
      | .error e => .error e
      | .ok rows =>
        match walkReferences.loop s iterator
            { builder := builder, rows := rows, counter := 1 } with
        | .error e => .error e
        | .ok st =>
          match sliceFrom st.rows ((st.rows.length : Int) - st.counter + 1) with
          | .error e => .error e
          | .ok rowsSliced =>
            match orderTable cmp st.builder rowsSliced s.Order with
            | .error e => .error e
            | .ok rowsSliced => .ok (printTable rowsSliced fields)

/-- The `for` loop of `walkRemotes` over the remote names. -/
def walkRemotes.loop (s : NodeSelect) (fields : List String) :
    List String → WalkVars → Except Failure WalkVars
  | [], st => .ok st
  | remoteName :: rest, st =>
    match st.builder.repo.LoadRemote remoteName with
    | .error errRemote => .error (.fatal errRemote)
    | .ok object =>
      let builder := st.builder.setRemote (some object)
      let boolRegister := s.Where builder
      if boolRegister then
        match fillRow (fun f => metadataRemote builder f (some object)) fields [] with
        | .error e => .error e
        | .ok newRow =>
          let rows := st.rows ++ [some newRow]
          let counter := st.counter + 1
          if counter > s.Limit then .ok { builder := builder, rows := rows, counter := counter }
          else walkRemotes.loop s fields rest
            { builder := builder, rows := rows, counter := counter }
      else walkRemotes.loop s fields rest { st with builder := builder }

def walkRemotes (cmp : Assertions) (n : NodeProgram) (builder : GitBuilder) :
    Except Failure Printed :=
  let s := n.Child
  match builder.repo.ListRemotes with
  | .error err => .error (.fatal err)
  | .ok remoteNames =>
    match selectFields builder s with
    | .error e => .error e
    | .ok fields =>
      match makeRows s.Limit with
      | .error e => .error e
      | .ok rows =>
        match walkRemotes.loop s fields remoteNames
            { builder := builder, rows := rows, counter := 1 } with
        | .error e => .error e
        | .ok st =>
          match sliceFrom st.rows ((st.rows.length : Int) - st.counter + 1) with
          | .error e => .error e
          | .ok rowsSliced =>
            match orderTable cmp st.builder rowsSliced s.Order with
            | .error e => .error e
            | .ok rowsSliced => .ok (printTable rowsSliced fields)

/-- The empty function `walkTrees`: nothing is printed. -/
def walkTrees (_n : NodeProgram) (_builder : GitBuilder) : Option Printed := none

/-! ## Dispatch -/

/-- The function `findWalkType`: the walk type returned and the builder with
that value stored in `currentWalkType`. -/
def findWalkType (n : NodeProgram) (builder : GitBuilder) : Except Failure (Nat × GitBuilder) :=
  let s := n.Child
  match firstTable s with
  | .error e => .error e
  | .ok t =>
    let builder :=
      if t = "commits" then { builder with currentWalkType := WALK_COMMITS }
      else if t = "trees" then { builder with currentWalkType := WALK_TREES }
      else if t = "remotes" then { builder with currentWalkType := WALK_REMOTES }
      else if t = "refs" ∨ t = "tags" ∨ t = "branches" then
        { builder with currentWalkType := WALK_REFERENCES }
      else builder
    .ok (builder.currentWalkType, builder)

/-- The `switch findWalkType(n)` of `Run`: what is printed, `none` when no
walker prints. -/
def runWalk (cmp : Assertions) (n : NodeProgram) (builder : GitBuilder) :
    Except Failure (Option Printed) :=
  match findWalkType n builder with
  | .error e => .error e
  | .ok (walkType, builder) =>
    if walkType = WALK_COMMITS then (walkCommits cmp n builder).map some
    else if walkType = WALK_TREES then .ok (walkTrees n builder)
    else if walkType = WALK_REFERENCES then (walkReferences cmp n builder).map some
    else if walkType = WALK_REMOTES then (walkRemotes cmp n builder).map some
    else .ok none

/-- The function `Run` on an opened repository. -/
def Run (visitor : RuntimeVisitor) (cmp : Assertions) (repo : Repository) (n : NodeProgram) :
    Except Failure (Option Printed) :=
  let builder := GetGitBuilder repo
  match visitor.Visit n builder with
  | .error err => .error (.fatal err.message)
  | .ok builder => runWalk cmp n builder

/-! ## Rows as projections -/

/-- The row `walkCommits` builds for a commit that passes the filter. -/
def commitRow (g : GitBuilder) (fields : List String) (object : Commit) :
    Except Failure tableRow :=
  (fillRow (fun f => metadataCommit g f (some object)) fields []).map some

/-- The row `walkReferences` builds for a reference that passes the filter. -/
def referenceRow (g : GitBuilder) (fields : List String) (object : Reference) :
    Except Failure tableRow :=
  (fillRow (fun f => metadataReference g f (some object)) fields []).map some

/-- The row `walkRemotes` builds for a remote that passes the filter. -/
def remoteRow (g : GitBuilder) (fields : List String) (object : Remote) :
    Except Failure tableRow :=
  (fillRow (fun f => metadataRemote g f (some object)) fields []).map some

/-- What the code after a walker loop reads of the loop variables: the rows,
the counter, and the table bindings and schema of the builder. -/
def WalkVars.observed (st : WalkVars) :
    List tableRow × Int × GoMap String × GoMap (List String) :=
  (st.rows, st.counter, st.builder.tables, st.builder.possibleTables)

/-- The field list `possibleTables[t]` of the schema, empty for a missing
table. -/
def declaredFields (t : String) : List String := (GoMap.lookup PossibleTables t).getD []

/-! ## Sample inputs -/

/-- Bytewise lexicographic order, the order of Go's string comparison. -/
def lexLt : List Char → List Char → Bool
  | _, [] => false
  | [], _ :: _ => true
  | a :: as, b :: bs => a.toNat < b.toNat || (a.toNat == b.toNat && lexLt as bs)

/-- Assertions that compare strings as Go's `>` and `<` do. -/
def stringAssertions : Assertions :=
  { Greater := fun a b => lexLt b.data a.data,
    Smaller := fun a b => lexLt a.data b.data }

def sampleBranch (short : String) : Reference :=
  { Shorthand := short, Name := "refs/heads/" ++ short, Target := some "1f0c",
    IsBranch := true, IsRemote := false, IsTag := false }

def sampleTag (short : String) : Reference :=
  { Shorthand := short, Name := "refs/tags/" ++ short, Target := some "77ab",
    IsBranch := false, IsRemote := false, IsTag := true }

def sampleCommit (id message : String) : Commit :=
  { Id := id,
    Author := { Name := "ann", Email := "ann@example.org", When := "2014-03-01 10:00:00" },
    Committer := { Name := "bob", Email := "bob@example.org", When := "2014-03-02 11:30:00" },
    Message := message }

def sampleRemote (name : String) : Remote :=
  { Name := name, Url := "git://example.org/" ++ name, PushUrl := "", OwnerPath := "/repo/.git/" }

/-- A repository with two commits, a branch and a tag, and two remote names
of which only `origin` loads. -/
def sampleRepo : Repository :=
  { Walk := [sampleCommit "c2" "second\nbody", sampleCommit "c1" "first"],
    NewReferenceIterator := .ok [sampleBranch "master", sampleTag "v1"],
    ListRemotes := .ok ["origin", "broken"],
    LoadRemote := fun name =>
      if name = "origin" then .ok (sampleRemote "origin") else .error "remote not found" }

/-- The builder after the table `t` has been bound under its own name. -/
def boundBuilder (t : String) (repo : Repository) : GitBuilder :=
  { GetGitBuilder repo with tables := [(t, t)] }

/-- A query `select fields from t limit l`, with no filter and no order. -/
def plainQuery (t : String) (fields : List String) (l : Int) : NodeProgram :=
  { Path := ".",
    Child := { WildCard := false, Fields := fields, Tables := [t],
               Where := fun _ => true, Order := none, Limit := l } }

/-- A query `select * from t limit l`, with no filter and no order. -/
def wildcardQuery (t : String) (l : Int) : NodeProgram :=
  { Path := ".",
    Child := { WildCard := true, Fields := [], Tables := [t],
               Where := fun _ => true, Order := none, Limit := l } }

/-- A row with the single cell `date`. -/
def dateRow (d : String) : tableRow := some [("date", d)]

/-! ## Entities a walker is asked for -/

/-- The commits on which `Iterate` calls `fn`: each commit in turn, up to and
including the first on which `fn` returns false or the run ends. -/
def Iterate.visited (fn : WalkVars → Commit → Except Failure (WalkVars × Bool)) :
    List Commit → WalkVars → List Commit
  | [], _ => []
  | object :: rest, st =>
    match fn st object with
    | .error _ => [object]
    | .ok (st', continues) =>
      if continues then object :: Iterate.visited fn rest st' else [object]

/-- A Go `for` loop over a sequence whose body may `break`: the body runs on
each element in turn, and the flag it returns says that it took the `break`. -/
def forRange {α : Type} (body : WalkVars → α → Except Failure (WalkVars × Bool)) :
    List α → WalkVars → Except Failure WalkVars
  | [], st => .ok st
  | x :: rest, st =>
    match body st x with
    | .error e => .error e
    | .ok (st', breaks) => if breaks then .ok st' else forRange body rest st'

/-- The elements on which `forRange` runs the body: each element in turn, up
to and including the first on which the body breaks or the run ends. -/
def forRange.visited {α : Type} (body : WalkVars → α → Except Failure (WalkVars × Bool)) :
    List α → WalkVars → List α
  | [], _ => []
  | x :: rest, st =>
    match body st x with
    | .error _ => [x]
    | .ok (st', breaks) => if breaks then [x] else x :: forRange.visited body rest st'

/-- One pass of the body of the `for` loop of `walkReferences`, on the
reference `iterator.Next()` returned; the flag says that `break` was
reached. -/
def walkReferences.body (s : NodeSelect) (st : WalkVars) (object : Reference) :
    Except Failure (WalkVars × Bool) :=
  let builder := st.builder.setReference (some object)
  let boolRegister := s.Where builder
  if boolRegister then
    match selectFields builder s with
    | .error e => .error e
    | .ok fields =>
      match fillRow (fun f => metadataReference builder f (some object)) fields [] with
      | .error e => .error e
      | .ok newRow =>
        let rows := st.rows ++ [some newRow]
        let counter := st.counter + 1
        if counter > s.Limit then
          .ok ({ builder := builder, rows := rows, counter := counter }, true)
        else .ok ({ builder := builder, rows := rows, counter := counter }, false)
  else .ok ({ st with builder := builder }, false)

/-- One pass of the body of the `for` loop of `walkRemotes`, on a remote
name, starting with `LoadRemote`; the flag says that `break` was reached. -/
def walkRemotes.body (s : NodeSelect) (fields : List String) (st : WalkVars)
    (remoteName : String) : Except Failure (WalkVars × Bool) :=
  match st.builder.repo.LoadRemote remoteName with
  | .error errRemote => .error (.fatal errRemote)
  | .ok object =>
    let builder := st.builder.setRemote (some object)
    let boolRegister := s.Where builder
    if boolRegister then
      match fillRow (fun f => metadataRemote builder f (some object)) fields [] with
      | .error e => .error e
      | .ok newRow =>
        let rows := st.rows ++ [some newRow]
        let counter := st.counter + 1
        if counter > s.Limit then
          .ok ({ builder := builder, rows := rows, counter := counter }, true)
        else .ok ({ builder := builder, rows := rows, counter := counter }, false)
    else .ok ({ st with builder := builder }, false)

/-- The prefix of a sequence that ends at its `n`-th element passing `p`, the
whole sequence when fewer than `n` elements pass. -/
def prefixThroughNth {α : Type} (p : α → Bool) : List α → Nat → List α
  | [], _ => []
  | _ :: _, 0 => []
  | x :: xs, n + 1 => x :: prefixThroughNth p xs (if p x then n else n + 1)

/-- The same query without its ordering clause. -/
def NodeProgram.withoutOrder (n : NodeProgram) : NodeProgram :=
  { n with Child := { n.Child with Order := none } }

/-- A query `select fields from t order by field limit l`, with no filter. -/
def orderedQuery (t : String) (fields : List String) (field : String) (asc : Bool) (l : Int) :
    NodeProgram :=
  { Path := ".",
    Child := { WildCard := false, Fields := fields, Tables := [t],
               Where := fun _ => true, Order := some { Field := field, Asc := asc },
               Limit := l } }

/-! # Theorems -/

/-! ## Schema registry -/

theorem lookup_possibleTables_cases (t : String) :
    GoMap.lookup PossibleTables t = none ∨ t = "commits" ∨ t = "refs" ∨ t = "remotes" ∨
      t = "tags" ∨ t = "branches" := by
  by_cases h1 : t = "commits"
  · exact Or.inr (Or.inl h1)
  by_cases h2 : t = "refs"
  · exact Or.inr (Or.inr (Or.inl h2))
  by_cases h3 : t = "remotes"
  · exact Or.inr (Or.inr (Or.inr (Or.inl h3)))
  by_cases h4 : t = "tags"
  · exact Or.inr (Or.inr (Or.inr (Or.inr (Or.inl h4))))
  by_cases h5 : t = "branches"
  · exact Or.inr (Or.inr (Or.inr (Or.inr (Or.inr h5))))
  left
  simp [PossibleTables, GoMap.lookup, Ne.symm h1, Ne.symm h2, Ne.symm h3, Ne.symm h4, Ne.symm h5]

/-- C6, as stated, fails: `type` is declared for `refs` and for neither proxy
table, so the proxy tables do not have the field set of their base table. -/
theorem proxy_fields_differ_from_refs :
    ¬ ((∀ f, f ∈ declaredFields "tags" ↔ f ∈ declaredFields "refs") ∧
       (∀ f, f ∈ declaredFields "branches" ↔ f ∈ declaredFields "refs")) := by
  intro h
  have h1 : "type" ∈ declaredFields "refs" := by decide
  have h2 : ¬ "type" ∈ declaredFields "tags" := by decide
  exact h2 ((h.1 "type").2 h1)

/-- C6, amended: the field lists `PossibleTables` declares for `tags` and for
`branches` are the same list, `name, full_name, hash`, which is the list
declared for `refs` with `type` taken out and the other fields kept. -/
theorem proxy_fields_are_refs_without_type :
    GoMap.lookup PossibleTables "tags" = some ["name", "full_name", "hash"] ∧
    GoMap.lookup PossibleTables "branches" = some ["name", "full_name", "hash"] ∧
    GoMap.lookup PossibleTables "refs" = some ["name", "full_name", "type", "hash"] ∧
    (∀ f, f ∈ declaredFields "tags" ↔ (f ∈ declaredFields "refs" ∧ f ≠ "type")) ∧
    (∀ f, f ∈ declaredFields "branches" ↔ (f ∈ declaredFields "refs" ∧ f ≠ "type")) := by
  refine ⟨by decide, by decide, by decide, ?_, ?_⟩ <;>
  · intro f
    have ht : declaredFields "tags" = ["name", "full_name", "hash"] := by decide
    have hb : declaredFields "branches" = ["name", "full_name", "hash"] := by decide
    have hr : declaredFields "refs" = ["name", "full_name", "type", "hash"] := by decide
    rw [hr]
    first | rw [ht] | rw [hb]
    simp only [List.mem_cons, List.mem_singleton, List.not_mem_nil, or_false]
    constructor
    · rintro (h | h | h) <;> subst h <;> decide
    · rintro ⟨h | h | h | h, hne⟩
      · exact Or.inl h
      · exact Or.inr (Or.inl h)
      · exact absurd h hne
      · exact Or.inr (Or.inr h)

/-- C7: `UseFieldFromTable(f, t)` fails with the table-not-found error when
`t` is not a key of `possibleTables`, also for the wildcard; for a declared
`t` it succeeds on the wildcard, and on any other field it succeeds exactly
when the field occurs in the list declared for `t`, failing with the
field-not-found error otherwise. -/
theorem useFieldFromTable_spec (g : GitBuilder) (f t : String) :
    (GoMap.lookup g.possibleTables t = none →
      g.UseFieldFromTable f t =
        .error (throwRuntimeError ("Table '" ++ t ++ "' not found") 0)) ∧
    (∀ declared, GoMap.lookup g.possibleTables t = some declared →
      (f = "*" → g.UseFieldFromTable f t = .ok ()) ∧
      (f ≠ "*" → (g.UseFieldFromTable f t = .ok () ↔ f ∈ declared)) ∧
      (f ≠ "*" → f ∉ declared →
        g.UseFieldFromTable f t =
          .error (throwRuntimeError ("Table '" ++ t ++ "' has not field '" ++ f ++ "'") 0))) := by
  refine ⟨?_, ?_⟩
  · intro h
    simp [GitBuilder.UseFieldFromTable, GitBuilder.isValidTable, h]
  · intro declared h
    refine ⟨?_, ?_, ?_⟩
    · intro hf
      simp [GitBuilder.UseFieldFromTable, GitBuilder.isValidTable, h, hf]
    · intro hf
      by_cases hm : f ∈ declared
      · simp [GitBuilder.UseFieldFromTable, GitBuilder.isValidTable, h, hf, hm]
      · simp [GitBuilder.UseFieldFromTable, GitBuilder.isValidTable, h, hf, hm]
    · intro hf hm
      simp [GitBuilder.UseFieldFromTable, GitBuilder.isValidTable, h, hf, hm]

/-- Witness of C7 on the schema of `GetGitBuilder`: `trees` is not declared and
is refused for the wildcard, `hash` is accepted for `commits` and `url` is
not. -/
theorem useFieldFromTable_spec_witness :
    (GetGitBuilder sampleRepo).UseFieldFromTable "*" "trees" =
        .error (throwRuntimeError "Table 'trees' not found" 0) ∧
    (GetGitBuilder sampleRepo).UseFieldFromTable "*" "commits" = .ok () ∧
    (GetGitBuilder sampleRepo).UseFieldFromTable "hash" "commits" = .ok () ∧
    (GetGitBuilder sampleRepo).UseFieldFromTable "url" "commits" =
        .error (throwRuntimeError "Table 'commits' has not field 'url'" 0) :=
  ⟨(useFieldFromTable_spec (GetGitBuilder sampleRepo) "*" "trees").1 (by decide),
   ((useFieldFromTable_spec (GetGitBuilder sampleRepo) "*" "commits").2 _ rfl).1 rfl,
   (((useFieldFromTable_spec (GetGitBuilder sampleRepo) "hash" "commits").2 _
      rfl).2.1 (by decide)).2 (by decide),
   ((useFieldFromTable_spec (GetGitBuilder sampleRepo) "url" "commits").2 _
      rfl).2.2 (by decide) (by decide)⟩

/-! ## Walk dispatcher -/

/-- C8: `findWalkType` maps the first table name of the query to a walk type
whatever `currentWalkType` held before: `commits` to `WALK_COMMITS`, `trees`
to `WALK_TREES`, `remotes` to `WALK_REMOTES`, and `refs`, `tags`, `branches`
all to `WALK_REFERENCES`; the value returned is the one stored in the
builder, whose other fields are unchanged. -/
theorem findWalkType_spec (n : NodeProgram) (builder : GitBuilder) (t : String)
    (rest : List String) (hn : n.Child.Tables = t :: rest) :
    (t = "commits" → findWalkType n builder =
      .ok (WALK_COMMITS, { builder with currentWalkType := WALK_COMMITS })) ∧
    (t = "trees" → findWalkType n builder =
      .ok (WALK_TREES, { builder with currentWalkType := WALK_TREES })) ∧
    (t = "remotes" → findWalkType n builder =
      .ok (WALK_REMOTES, { builder with currentWalkType := WALK_REMOTES })) ∧
    (t = "refs" ∨ t = "tags" ∨ t = "branches" → findWalkType n builder =
      .ok (WALK_REFERENCES, { builder with currentWalkType := WALK_REFERENCES })) ∧
    (∀ walkType builder', findWalkType n builder = .ok (walkType, builder') →
      builder'.currentWalkType = walkType) := by
  refine ⟨?_, ?_, ?_, ?_, ?_⟩
  · intro h
    subst h
    simp [findWalkType, firstTable, hn]
  · intro h
    subst h
    simp [findWalkType, firstTable, hn]
  · intro h
    subst h
    simp [findWalkType, firstTable, hn]
  · intro h
    rcases h with h | h | h <;> subst h <;> simp [findWalkType, firstTable, hn]
  · intro walkType builder' h
    simp only [findWalkType, firstTable, hn] at h
    injection h with h
    injection h with h1 h2
    rw [← h1, ← h2]

/-- Witness of C8: a `tags` query on a builder whose walk type was
`WALK_COMMITS` is dispatched to the reference walk. -/
theorem findWalkType_spec_witness :
    findWalkType (plainQuery "tags" ["name"] 3)
        { GetGitBuilder sampleRepo with currentWalkType := WALK_COMMITS } =
      .ok (WALK_REFERENCES,
        { GetGitBuilder sampleRepo with currentWalkType := WALK_REFERENCES }) :=
  (findWalkType_spec (plainQuery "tags" ["name"] 3)
    { GetGitBuilder sampleRepo with currentWalkType := WALK_COMMITS } "tags" [] rfl).2.2.2.1
    (Or.inr (Or.inl rfl))

/-! ## Failing inputs -/

/-- C2: with a limit of 0 the reference walker and the commit walker each
print one row, where the claim asks for an empty result. -/
theorem limit_zero_prints_a_row :
    walkReferences stringAssertions (plainQuery "refs" ["name"] 0)
        (boundBuilder "refs" sampleRepo) =
      .ok { rows := [some [("name", "master")]], fields := ["name"] } ∧
    walkCommits stringAssertions (plainQuery "commits" ["hash"] 0)
        (boundBuilder "commits" sampleRepo) =
      .ok { rows := [some [("hash", "c2")]], fields := ["hash"] } :=
  ⟨rfl, rfl⟩

/-- C3: on four rows whose `date` keys are the distinct strings 2, 3, 0, 1,
compared as strings, `orderTable` with an ascending clause returns the keys
in the order 0, 2, 1, 3, and with a descending clause it turns the keys
0, 1, 3, 2 into 3, 1, 2, 0: neither result is sorted. -/
theorem orderTable_leaves_rows_unsorted :
    orderTable stringAssertions (boundBuilder "commits" sampleRepo)
        [dateRow "2", dateRow "3", dateRow "0", dateRow "1"]
        (some { Field := "date", Asc := true }) =
      .ok [dateRow "0", dateRow "2", dateRow "1", dateRow "3"] ∧
    orderTable stringAssertions (boundBuilder "commits" sampleRepo)
        [dateRow "0", dateRow "1", dateRow "3", dateRow "2"]
        (some { Field := "date", Asc := false }) =
      .ok [dateRow "3", dateRow "1", dateRow "2", dateRow "0"] :=
  ⟨rfl, rfl⟩

/-- C4: a query on `tags` with a filter that accepts every reference prints
a row for the branch `master`, and a query on `branches` prints a row for
the tag `v1`: the walker does not apply the type predicate of the proxy
table. -/
theorem proxy_tables_print_other_references :
    walkReferences stringAssertions (plainQuery "tags" ["full_name"] 5)
        (boundBuilder "tags" sampleRepo) =
      .ok { rows := [some [("full_name", "refs/heads/master")],
                     some [("full_name", "refs/tags/v1")]],
            fields := ["full_name"] } ∧
    walkReferences stringAssertions (plainQuery "branches" ["full_name"] 5)
        (boundBuilder "branches" sampleRepo) =
      .ok { rows := [some [("full_name", "refs/heads/master")],
                     some [("full_name", "refs/tags/v1")]],
            fields := ["full_name"] } :=
  ⟨rfl, rfl⟩

/-! ## First line of a commit message -/

theorem indexRune_scan_nonneg_or (r : Char) (l : List Char) (off : Nat) :
    (r ∉ l ∧ IndexRune.scan r l off = -1) ∨
    (∃ p q, l = p ++ r :: q ∧ r ∉ p ∧ IndexRune.scan r l off = ((off + byteLen p : Nat) : Int)) := by
  induction l generalizing off with
  | nil => left; simp [IndexRune.scan]
  | cons c cs ih =>
    by_cases hc : c = r
    · right
      refine ⟨[], cs, by simp [hc], by simp, ?_⟩
      simp [IndexRune.scan, hc, byteLen]
    · rcases ih (off + c.utf8Size) with ⟨hn, hs⟩ | ⟨p, q, hl, hp, hs⟩
      · left
        refine ⟨?_, ?_⟩
        · simp [hn, Ne.symm hc]
        · simp [IndexRune.scan, hc, hs]
      · right
        refine ⟨c :: p, q, by simp [hl], by simp [hp, Ne.symm hc], ?_⟩
        simp only [IndexRune.scan, hc, if_false, hs, byteLen]
        congr 1
        omega

theorem takeBytes_prefix (p : List Char) (c : Char) (q : List Char) :
    takeBytes (p ++ c :: q) (byteLen p) = p := by
  induction p with
  | nil =>
    have h := Char.utf8Size_pos c
    simp only [List.nil_append, byteLen, takeBytes]
    rw [if_neg (by omega)]
  | cons a p ih =>
    simp only [List.cons_append, byteLen, takeBytes]
    rw [if_pos (by omega)]
    simp [ih]

/-- The first line of a message has no line break, and the message is the
first line alone or the first line, a line break, and a remainder. -/
theorem firstLine_spec (m : String) :
    Char.ofNat 10 ∉ (firstLine m).data ∧
    (m = firstLine m ∨ ∃ rest : String, m = firstLine m ++ "\n" ++ rest) := by
  rcases indexRune_scan_nonneg_or (Char.ofNat 10) m.data 0 with ⟨hn, hs⟩ | ⟨p, q, hl, hp, hs⟩
  · have h : firstLine m = m := by simp [firstLine, IndexRune, hs]
    rw [h]
    exact ⟨hn, Or.inl rfl⟩
  · have h : firstLine m = String.mk p := by
      have hne : ((0 + byteLen p : Nat) : Int) ≠ -1 := by omega
      simp only [firstLine, IndexRune, hs, slicePrefix]
      rw [if_pos hne]
      simp only [Int.toNat_ofNat, Nat.zero_add, hl, takeBytes_prefix]
    rw [h]
    refine ⟨hp, Or.inr ⟨String.mk q, ?_⟩⟩
    apply String.ext
    simp [hl]

/-- C10: when `message` passes the field check, `metadataCommit` returns for
it the part of the commit message before its first line break: a text with
no line break such that the message is that text alone, or that text
followed by a line break and a remainder; it is the whole message when the
message has no line break. -/
theorem metadataCommit_message_first_line (g : GitBuilder) (c : Commit)
    (hfield : checkField g "message" = .ok ()) :
    ∃ r : String, metadataCommit g "message" (some c) = .ok r ∧
      Char.ofNat 10 ∉ r.data ∧
      (c.Message = r ∨ ∃ rest : String, c.Message = r ++ "\n" ++ rest) ∧
      (Char.ofNat 10 ∉ c.Message.data → r = c.Message) := by
  refine ⟨firstLine c.Message, ?_, (firstLine_spec c.Message).1, (firstLine_spec c.Message).2, ?_⟩
  · simp [metadataCommit, hfield, deref, Except.map]
  · intro hno
    rcases (firstLine_spec c.Message).2 with h | ⟨rest, h⟩
    · exact h.symm
    · exfalso
      apply hno
      rw [h]
      simp

/-- Witness of C10: on `commits` the message `second`, line break, `body` is
extracted as `second`. -/
theorem metadataCommit_message_first_line_witness :
    ∃ r : String,
      metadataCommit (boundBuilder "commits" sampleRepo) "message"
        (some (sampleCommit "c2" "second\nbody")) = .ok r ∧
      Char.ofNat 10 ∉ r.data ∧
      ((sampleCommit "c2" "second\nbody").Message = r ∨
        ∃ rest : String, (sampleCommit "c2" "second\nbody").Message = r ++ "\n" ++ rest) ∧
      (Char.ofNat 10 ∉ (sampleCommit "c2" "second\nbody").Message.data →
        r = (sampleCommit "c2" "second\nbody").Message) :=
  metadataCommit_message_first_line (boundBuilder "commits" sampleRepo)
    (sampleCommit "c2" "second\nbody") rfl

theorem metadataCommit_message_example :
    metadataCommit (boundBuilder "commits" sampleRepo) "message"
      (some (sampleCommit "c2" "second\nbody")) = .ok "second" := rfl

/-! ## Row pipeline -/

theorem setCommit_setCommit (g : GitBuilder) (x y : Option Commit) :
    (g.setCommit x).setCommit y = g.setCommit y := rfl

theorem setReference_setReference (g : GitBuilder) (x y : Option Reference) :
    (g.setReference x).setReference y = g.setReference y := rfl

theorem setRemote_setRemote (g : GitBuilder) (x y : Option Remote) :
    (g.setRemote x).setRemote y = g.setRemote y := rfl

theorem setCommit_schema (g : GitBuilder) (x : Option Commit) :
    (g.setCommit x).tables = g.tables ∧ (g.setCommit x).possibleTables = g.possibleTables :=
  ⟨rfl, rfl⟩

theorem setReference_schema (g : GitBuilder) (x : Option Reference) :
    (g.setReference x).tables = g.tables ∧
      (g.setReference x).possibleTables = g.possibleTables :=
  ⟨rfl, rfl⟩

theorem setRemote_schema (g : GitBuilder) (x : Option Remote) :
    (g.setRemote x).tables = g.tables ∧ (g.setRemote x).possibleTables = g.possibleTables :=
  ⟨rfl, rfl⟩

theorem metadataCommit_setCommit (g : GitBuilder) (cur : Option Commit) (object : Option Commit) :
    (fun f => metadataCommit (g.setCommit cur) f object) = fun f => metadataCommit g f object :=
  rfl

theorem metadataReference_setReference (g : GitBuilder) (cur : Option Reference)
    (object : Option Reference) :
    (fun f => metadataReference (g.setReference cur) f object) =
      fun f => metadataReference g f object := rfl

theorem metadataRemote_setRemote (g : GitBuilder) (cur : Option Remote) (object : Option Remote) :
    (fun f => metadataRemote (g.setRemote cur) f object) = fun f => metadataRemote g f object :=
  rfl

theorem mapM_cons_ok {α β : Type} (f : α → Except Failure β) (a : α) (l : List α) (b : β)
    (h : f a = .ok b) :
    (a :: l).mapM f = (l.mapM f).map (fun bs => b :: bs) := by
  rw [List.mapM_cons, h]
  cases l.mapM f <;> rfl

theorem mapM_cons_error {α β : Type} (f : α → Except Failure β) (a : α) (l : List α)
    (e : Failure) (h : f a = .error e) :
    (a :: l).mapM f = .error e := by
  rw [List.mapM_cons, h]
  rfl

theorem mapM_nil_ok {α β : Type} (f : α → Except Failure β) :
    ([] : List α).mapM f = .ok [] := by
  rw [List.mapM_nil]
  rfl

/-- While the counter has not passed the limit, the commit loop appends the
rows of the first `Limit - counter + 1` matching commits, in order, and
counts them. -/
theorem iterate_rows (s : NodeSelect) (fields : List String) (b : GitBuilder)
    (es : List Commit) :
    ∀ (cur : Option Commit) (rows : List tableRow) (k : Int), 1 ≤ k → k ≤ s.Limit →
        (Iterate (walkCommits.fn s fields) es
            { builder := b.setCommit cur, rows := rows, counter := k }).map WalkVars.observed =
          (((es.filter (fun c => s.Where (b.setCommit (some c)))).take
              (s.Limit - k + 1).toNat).mapM (commitRow b fields)).map
            (fun new => (rows ++ new, k + (new.length : Int), b.tables, b.possibleTables)) := by
  induction es with
  | nil =>
    intro cur rows k _ _
    rw [List.filter_nil, List.take_nil, mapM_nil_ok]
    simp [Iterate, Except.map, WalkVars.observed, setCommit_schema]
  | cons c es ih =>
    intro cur rows k h1 h2
    have hcap : (s.Limit - k + 1).toNat = (s.Limit - k).toNat + 1 := by omega
    by_cases hp : s.Where (b.setCommit (some c)) = true
    · rw [List.filter_cons_of_pos (by simpa using hp), hcap, List.take_succ_cons]
      cases hrow : fillRow (fun f => metadataCommit b f (some c)) fields [] with
      | error e =>
        rw [mapM_cons_error _ _ _ e (by simp [commitRow, hrow, Except.map])]
        simp [Iterate, walkCommits.fn, setCommit_setCommit, hp, metadataCommit_setCommit, hrow,
          Except.map]
      | ok newRow =>
        rw [mapM_cons_ok _ _ _ (some newRow) (by simp [commitRow, hrow, Except.map])]
        by_cases hlim : k + 1 > s.Limit
        · have hz : (s.Limit - k).toNat = 0 := by omega
          rw [hz, List.take_zero, mapM_nil_ok]
          simp [Iterate, walkCommits.fn, setCommit_setCommit, hp, metadataCommit_setCommit, hrow,
            Except.map, hlim, WalkVars.observed, setCommit_schema]
        · have hstep := ih (some c) (rows ++ [some newRow]) (k + 1) (by omega) (by omega)
          have hcap2 : (s.Limit - (k + 1) + 1).toNat = (s.Limit - k).toNat := by omega
          rw [hcap2] at hstep
          simp only [Iterate, walkCommits.fn, setCommit_setCommit, hp, metadataCommit_setCommit,
            hrow, hlim, if_true, if_false]
          rw [hstep]
          cases List.mapM (commitRow b fields)
            (List.take (s.Limit - k).toNat
              (List.filter (fun c => s.Where (b.setCommit (some c))) es)) with
          | error e => rfl
          | ok new =>
            simp only [Except.map, List.append_assoc, List.singleton_append, List.length_cons]
            congr 3
            push_cast
            omega
    · rw [List.filter_cons_of_neg (by simpa using hp)]
      have hk : ¬ k > s.Limit := by omega
      have hstep := ih (some c) rows k h1 h2
      simp only [Iterate, walkCommits.fn, setCommit_setCommit, hp, hk, if_false]
      exact hstep

/-- The reference loop, as `iterate_rows`. -/
theorem referenceLoop_rows (s : NodeSelect) (fields : List String) (b : GitBuilder)
    (hsel : selectFields b s = .ok fields) (es : List Reference) :
    ∀ (cur : Option Reference) (rows : List tableRow) (k : Int), 1 ≤ k → k ≤ s.Limit →
        (walkReferences.loop s es
            { builder := b.setReference cur, rows := rows, counter := k }).map
            WalkVars.observed =
          (((es.filter (fun c => s.Where (b.setReference (some c)))).take
              (s.Limit - k + 1).toNat).mapM (referenceRow b fields)).map
            (fun new => (rows ++ new, k + (new.length : Int), b.tables, b.possibleTables)) := by
  have hsel' : ∀ x, selectFields (b.setReference x) s = .ok fields := fun _ => hsel
  induction es with
  | nil =>
    intro cur rows k _ _
    rw [List.filter_nil, List.take_nil, mapM_nil_ok]
    simp [walkReferences.loop, Except.map, WalkVars.observed, setReference_schema]
  | cons c es ih =>
    intro cur rows k h1 h2
    have hcap : (s.Limit - k + 1).toNat = (s.Limit - k).toNat + 1 := by omega
    by_cases hp : s.Where (b.setReference (some c)) = true
    · rw [List.filter_cons_of_pos (by simpa using hp), hcap, List.take_succ_cons]
      cases hrow : fillRow (fun f => metadataReference b f (some c)) fields [] with
      | error e =>
        rw [mapM_cons_error _ _ _ e (by simp [referenceRow, hrow, Except.map])]
        simp [walkReferences.loop, setReference_setReference, hp, hsel',
          metadataReference_setReference, hrow, Except.map]
      | ok newRow =>
        rw [mapM_cons_ok _ _ _ (some newRow) (by simp [referenceRow, hrow, Except.map])]
        by_cases hlim : k + 1 > s.Limit
        · have hz : (s.Limit - k).toNat = 0 := by omega
          rw [hz, List.take_zero, mapM_nil_ok]
          simp [walkReferences.loop, setReference_setReference, hp, hsel',
            metadataReference_setReference, hrow, Except.map, hlim, WalkVars.observed,
            setReference_schema]
        · have hstep := ih (some c) (rows ++ [some newRow]) (k + 1) (by omega) (by omega)
          have hcap2 : (s.Limit - (k + 1) + 1).toNat = (s.Limit - k).toNat := by omega
          rw [hcap2] at hstep
          simp only [walkReferences.loop, setReference_setReference, hp, hsel',
            metadataReference_setReference, hrow, hlim, if_true, if_false]
          rw [hstep]
          cases List.mapM (referenceRow b fields)
            (List.take (s.Limit - k).toNat
              (List.filter (fun c => s.Where (b.setReference (some c))) es)) with
          | error e => rfl
          | ok new =>
            simp only [Except.map, List.append_assoc, List.singleton_append, List.length_cons]
            congr 3
            push_cast
            omega
    · rw [List.filter_cons_of_neg (by simpa using hp)]
      have hstep := ih (some c) rows k h1 h2
      simp only [walkReferences.loop, setReference_setReference, hp]
      exact hstep

/-- The remote loop, as `iterate_rows`, over names that all load. -/
theorem remoteLoop_rows (s : NodeSelect) (fields : List String) (b : GitBuilder)
    (names : List String) (es : List Remote)
    (hload : List.Forall₂ (fun name r => b.repo.LoadRemote name = .ok r) names es) :
    ∀ (cur : Option Remote) (rows : List tableRow) (k : Int), 1 ≤ k → k ≤ s.Limit →
        (walkRemotes.loop s fields names
            { builder := b.setRemote cur, rows := rows, counter := k }).map
            WalkVars.observed =
          (((es.filter (fun c => s.Where (b.setRemote (some c)))).take
              (s.Limit - k + 1).toNat).mapM (remoteRow b fields)).map
            (fun new => (rows ++ new, k + (new.length : Int), b.tables, b.possibleTables)) := by
  induction hload with
  | nil =>
    intro cur rows k _ _
    rw [List.filter_nil, List.take_nil, mapM_nil_ok]
    simp [walkRemotes.loop, Except.map, WalkVars.observed, setRemote_schema]
  | @cons name c names es hc _ ih =>
    intro cur rows k h1 h2
    have hc' : (b.setRemote cur).repo.LoadRemote name = .ok c := hc
    have hcap : (s.Limit - k + 1).toNat = (s.Limit - k).toNat + 1 := by omega
    by_cases hp : s.Where (b.setRemote (some c)) = true
    · rw [List.filter_cons_of_pos (by simpa using hp), hcap, List.take_succ_cons]
      cases hrow : fillRow (fun f => metadataRemote b f (some c)) fields [] with
      | error e =>
        rw [mapM_cons_error _ _ _ e (by simp [remoteRow, hrow, Except.map])]
        simp [walkRemotes.loop, hc', setRemote_setRemote, hp, metadataRemote_setRemote, hrow,
          Except.map]
      | ok newRow =>
        rw [mapM_cons_ok _ _ _ (some newRow) (by simp [remoteRow, hrow, Except.map])]
        by_cases hlim : k + 1 > s.Limit
        · have hz : (s.Limit - k).toNat = 0 := by omega
          rw [hz, List.take_zero, mapM_nil_ok]
          simp [walkRemotes.loop, hc', setRemote_setRemote, hp, metadataRemote_setRemote, hrow,
            Except.map, hlim, WalkVars.observed, setRemote_schema]
        · have hstep := ih (some c) (rows ++ [some newRow]) (k + 1) (by omega) (by omega)
          have hcap2 : (s.Limit - (k + 1) + 1).toNat = (s.Limit - k).toNat := by omega
          rw [hcap2] at hstep
          simp only [walkRemotes.loop, hc', setRemote_setRemote, hp, metadataRemote_setRemote,
            hrow, hlim, if_true, if_false]
          rw [hstep]
          cases List.mapM (remoteRow b fields)
            (List.take (s.Limit - k).toNat
              (List.filter (fun c => s.Where (b.setRemote (some c))) es)) with
          | error e => rfl
          | ok new =>
            simp only [Except.map, List.append_assoc, List.singleton_append, List.length_cons]
            congr 3
            push_cast
            omega
    · rw [List.filter_cons_of_neg (by simpa using hp)]
      have hstep := ih (some c) rows k h1 h2
      simp only [walkRemotes.loop, hc', setRemote_setRemote, hp]
      exact hstep

/-! ## Rows as maps -/

theorem lookup_store_self {β : Type} (m : GoMap β) (k : String) (v : β) :
    GoMap.lookup (GoMap.store m k v) k = some v := by
  induction m with
  | nil => simp [GoMap.store, GoMap.lookup]
  | cons kv rest ih =>
    obtain ⟨k', v'⟩ := kv
    by_cases h : k' = k
    · simp [GoMap.store, GoMap.lookup, h]
    · simp [GoMap.store, GoMap.lookup, h, ih]

theorem lookup_store_other {β : Type} (m : GoMap β) (k k' : String) (v : β) (hne : k ≠ k') :
    GoMap.lookup (GoMap.store m k v) k' = GoMap.lookup m k' := by
  induction m with
  | nil => simp [GoMap.store, GoMap.lookup, hne]
  | cons kv rest ih =>
    obtain ⟨k0, v0⟩ := kv
    by_cases h : k0 = k
    · subst h
      simp [GoMap.store, GoMap.lookup, hne]
    · by_cases h' : k0 = k'
      · subst h'
        simp [GoMap.store, GoMap.lookup, h]
      · simp [GoMap.store, GoMap.lookup, h, h', ih]

theorem mem_keys_iff_lookup {β : Type} (m : GoMap β) (k : String) :
    k ∈ GoMap.keys m ↔ ∃ v, GoMap.lookup m k = some v := by
  induction m with
  | nil => simp [GoMap.keys, GoMap.lookup]
  | cons kv rest ih =>
    obtain ⟨k0, v0⟩ := kv
    by_cases h : k0 = k
    · simp [GoMap.keys, GoMap.lookup, h]
    · have ih' : k ∈ List.map Prod.fst rest ↔ ∃ v, GoMap.lookup rest k = some v := ih
      simp [GoMap.keys, GoMap.lookup, h, Ne.symm h, ih']

theorem keys_store_new {β : Type} (m : GoMap β) (k : String) (v : β) (h : k ∉ GoMap.keys m) :
    GoMap.keys (GoMap.store m k v) = GoMap.keys m ++ [k] := by
  induction m with
  | nil => simp [GoMap.store, GoMap.keys]
  | cons kv rest ih =>
    obtain ⟨k0, v0⟩ := kv
    have h0 : k0 ≠ k := by
      intro h'
      apply h
      simp [GoMap.keys, h']
    have hr : k ∉ GoMap.keys rest := by
      intro h'
      apply h
      simp only [GoMap.keys, List.map_cons, List.mem_cons]
      exact Or.inr h'
    have := ih hr
    simp only [GoMap.keys] at this
    simp [GoMap.store, GoMap.keys, h0, this]

/-- The row loop stores, for every field of the list, the value extracted for
it, and leaves every other key as it was. -/
theorem fillRow_lookup (extract : String → Except Failure String) (fields : List String) :
    ∀ (acc m : GoMap String), fillRow extract fields acc = .ok m →
      (∀ f ∈ fields, ∃ v, extract f = .ok v ∧ GoMap.lookup m f = some v) ∧
      (∀ f, f ∉ fields → GoMap.lookup m f = GoMap.lookup acc f) := by
  induction fields with
  | nil =>
    intro acc m h
    simp only [fillRow, Except.ok.injEq] at h
    subst h
    simp
  | cons f0 rest ih =>
    intro acc m h
    cases h0 : extract f0 with
    | error e => simp [fillRow, h0] at h
    | ok v0 =>
      simp only [fillRow, h0] at h
      obtain ⟨ih1, ih2⟩ := ih _ _ h
      refine ⟨?_, ?_⟩
      · intro f hf
        by_cases hfr : f ∈ rest
        · exact ih1 f hfr
        · have hf0 : f = f0 := by
            rcases List.mem_cons.1 hf with h' | h'
            · exact h'
            · exact absurd h' hfr
          subst hf0
          exact ⟨v0, h0, by rw [ih2 f hfr, lookup_store_self]⟩
      · intro f hf
        have hne : f0 ≠ f := fun h' => hf (by simp [h'])
        have hfr : f ∉ rest := fun h' => hf (List.mem_cons_of_mem _ h')
        rw [ih2 f hfr, lookup_store_other _ _ _ _ hne]

/-- On a list of distinct fields none of which is a key yet, the row loop
appends the fields to the keys, in order. -/
theorem fillRow_keys (extract : String → Except Failure String) (fields : List String) :
    ∀ (acc m : GoMap String), fields.Nodup → (∀ f ∈ fields, f ∉ GoMap.keys acc) →
      fillRow extract fields acc = .ok m → GoMap.keys m = GoMap.keys acc ++ fields := by
  induction fields with
  | nil =>
    intro acc m _ _ h
    simp only [fillRow, Except.ok.injEq] at h
    subst h
    simp
  | cons f0 rest ih =>
    intro acc m hnd hnew h
    cases h0 : extract f0 with
    | error e => simp [fillRow, h0] at h
    | ok v0 =>
      simp only [fillRow, h0] at h
      have hk := keys_store_new acc f0 v0 (hnew f0 (by simp))
      have hnd' := List.nodup_cons.1 hnd
      have := ih (GoMap.store acc f0 v0) m hnd'.2 (by
        intro f hf
        rw [hk]
        simp only [List.mem_append, List.mem_singleton, not_or]
        refine ⟨hnew f (List.mem_cons_of_mem _ hf), ?_⟩
        intro h'
        subst h'
        exact hnd'.1 hf) h
      rw [this, hk]
      simp

/-- The row loop succeeds when the extraction of every field does. -/
theorem fillRow_ok (extract : String → Except Failure String) (fields : List String)
    (hok : ∀ f ∈ fields, ∃ v, extract f = .ok v) :
    ∀ acc : GoMap String, ∃ m, fillRow extract fields acc = .ok m := by
  induction fields with
  | nil => intro acc; exact ⟨acc, rfl⟩
  | cons f0 rest ih =>
    intro acc
    obtain ⟨v0, h0⟩ := hok f0 (by simp)
    obtain ⟨m, hm⟩ := ih (fun f hf => hok f (List.mem_cons_of_mem _ hf)) (GoMap.store acc f0 v0)
    exact ⟨m, by simp [fillRow, h0, hm]⟩

/-- A row is the projection of an entity on a field list: a map, not the nil
row, whose keys are the fields of the list and which holds for each of them
the extracted value. -/
theorem fillRow_projection (extract : String → Except Failure String) (fields : List String)
    (r : tableRow) (h : (fillRow extract fields []).map some = .ok r) :
    ∃ m : GoMap String, r = some m ∧ (∀ f, f ∈ GoMap.keys m ↔ f ∈ fields) ∧
      ∀ f ∈ fields, ∃ v, extract f = .ok v ∧ GoMap.lookup m f = some v := by
  cases hm : fillRow extract fields [] with
  | error e => simp [hm, Except.map] at h
  | ok m =>
    simp only [hm, Except.map, Except.ok.injEq] at h
    obtain ⟨h1, h2⟩ := fillRow_lookup extract fields [] m hm
    refine ⟨m, h.symm, ?_, h1⟩
    intro f
    rw [mem_keys_iff_lookup]
    constructor
    · rintro ⟨v, hv⟩
      by_contra hf
      rw [h2 f hf] at hv
      simp [GoMap.lookup] at hv
    · intro hf
      obtain ⟨v, _, hv⟩ := h1 f hf
      exact ⟨v, hv⟩

theorem mapM_ok_forall₂ {α β : Type} (f : α → Except Failure β) :
    ∀ (l : List α) (out : List β), l.mapM f = .ok out →
      List.Forall₂ (fun a b => f a = .ok b) l out := by
  intro l
  induction l with
  | nil =>
    intro out h
    rw [mapM_nil_ok] at h
    injection h with h
    subst h
    exact List.Forall₂.nil
  | cons a l ih =>
    intro out h
    cases ha : f a with
    | error e => rw [mapM_cons_error _ _ _ e ha] at h; cases h
    | ok b =>
      rw [mapM_cons_ok _ _ _ b ha] at h
      cases hl : l.mapM f with
      | error e => rw [hl] at h; cases h
      | ok bs =>
        rw [hl] at h
        simp only [Except.map, Except.ok.injEq] at h
        subst h
        exact List.Forall₂.cons ha (ih bs hl)

/-! ## From the loop to the printed table -/

theorem checkField_congr (g g' : GitBuilder) (h1 : g.tables = g'.tables)
    (h2 : g.possibleTables = g'.possibleTables) (f : String) :
    checkField g f = checkField g' f := by
  simp [checkField, GitBuilder.UseFieldFromTable, GitBuilder.isValidTable, h1, h2]

theorem orderTable_congr (cmp : Assertions) (g g' : GitBuilder) (h1 : g.tables = g'.tables)
    (h2 : g.possibleTables = g'.possibleTables) (rows : List tableRow)
    (order : Option NodeOrder) :
    orderTable cmp g rows order = orderTable cmp g' rows order := by
  cases order with
  | none => rfl
  | some o => simp [orderTable, checkField_congr g g' h1 h2]

/-- After a loop that appended `new` to the `Limit` nil rows and counted each
appended row, the slice `rows[len(rows)-counter+1:]` is in bounds and is
`new`, which is then ordered and printed. -/
theorem walk_tail_ok (cmp : Assertions) (fields : List String) (order : Option NodeOrder)
    (b : GitBuilder) (limit : Int) (res : Except Failure WalkVars)
    (new : List tableRow) :
    res.map WalkVars.observed =
      .ok (List.replicate limit.toNat none ++ new, 1 + (new.length : Int), b.tables,
        b.possibleTables) →
    (match res with
      | .error e => .error e
      | .ok st =>
        match sliceFrom st.rows ((st.rows.length : Int) - st.counter + 1) with
        | .error e => .error e
        | .ok rowsSliced =>
          match orderTable cmp st.builder rowsSliced order with
          | .error e => .error e
          | .ok rowsSliced => .ok (printTable rowsSliced fields)) =
      (orderTable cmp b new order).map (fun rows => printTable rows fields) := by
  intro h
  cases res with
  | error e => simp [Except.map] at h
  | ok st =>
    simp only [Except.map, WalkVars.observed, Except.ok.injEq, Prod.mk.injEq] at h
    obtain ⟨hrows, hcounter, htables, hschema⟩ := h
    have hlow : ((st.rows.length : Int) - st.counter + 1) = (limit.toNat : Int) := by
      rw [hrows, hcounter]
      simp only [List.length_append, List.length_replicate]
      push_cast
      omega
    have hslice : sliceFrom st.rows ((st.rows.length : Int) - st.counter + 1) = .ok new := by
      rw [hlow]
      have hlen : ¬ ((limit.toNat : Int) < 0 ∨ (st.rows.length : Int) < (limit.toNat : Int)) := by
        rw [hrows]
        simp only [List.length_append, List.length_replicate]
        push_cast
        omega
      simp only [sliceFrom, hlen, if_false, Int.toNat_ofNat]
      rw [hrows]
      simp
    simp only [hslice, orderTable_congr cmp st.builder b htables hschema]
    cases orderTable cmp b new order <;> rfl

theorem walk_tail_error (cmp : Assertions) (fields : List String) (order : Option NodeOrder)
    (res : Except Failure WalkVars) (e : Failure) :
    res.map WalkVars.observed = .error e →
    (match res with
      | .error e => .error e
      | .ok st =>
        match sliceFrom st.rows ((st.rows.length : Int) - st.counter + 1) with
        | .error e => .error e
        | .ok rowsSliced =>
          match orderTable cmp st.builder rowsSliced order with
          | .error e => .error e
          | .ok rowsSliced => .ok (printTable rowsSliced fields)) =
      (.error e : Except Failure Printed) := by
  intro h
  cases res with
  | error e' =>
    simp only [Except.map, Except.error.injEq] at h
    rw [h]
  | ok st => simp [Except.map] at h

/-- The tail of a walker after a loop that, from the `Limit` nil rows and the
counter 1, appended the rows `spec` describes. -/
theorem walk_tail (cmp : Assertions) (fields : List String) (b : GitBuilder) (limit : Int)
    (res : Except Failure WalkVars) (spec : Except Failure (List tableRow)) :
    res.map WalkVars.observed =
      spec.map (fun new => (List.replicate limit.toNat none ++ new, 1 + (new.length : Int),
        b.tables, b.possibleTables)) →
    (match res with
      | .error e => .error e
      | .ok st =>
        match sliceFrom st.rows ((st.rows.length : Int) - st.counter + 1) with
        | .error e => .error e
        | .ok rowsSliced =>
          match orderTable cmp st.builder rowsSliced none with
          | .error e => .error e
          | .ok rowsSliced => .ok (printTable rowsSliced fields)) =
      spec.map (fun rows => printTable rows fields) := by
  intro h
  cases spec with
  | error e => exact walk_tail_error cmp fields none res e h
  | ok new =>
    rw [walk_tail_ok cmp fields none b limit res new h]
    rfl

theorem makeRows_ok (limit : Int) (h : 0 ≤ limit) :
    makeRows limit = .ok (List.replicate limit.toNat none) := by
  simp [makeRows, not_lt.2 h]

theorem walkCommits_first_matches (cmp : Assertions) (n : NodeProgram) (b : GitBuilder)
    (fields : List String) (hsel : selectFields b n.Child = .ok fields)
    (horder : n.Child.Order = none) (hlimit : 1 ≤ n.Child.Limit) :
    walkCommits cmp n b =
      (((b.repo.Walk.filter (fun c => n.Child.Where (b.setCommit (some c)))).take
          n.Child.Limit.toNat).mapM (commitRow b fields)).map
        (fun rows => printTable rows fields) := by
  have hloop := iterate_rows n.Child fields b b.repo.Walk b.currentCommit
    (List.replicate n.Child.Limit.toNat none) 1 (le_refl 1) hlimit
  have hcap : (n.Child.Limit - 1 + 1).toNat = n.Child.Limit.toNat := by omega
  rw [hcap] at hloop
  simp only [walkCommits, hsel, makeRows_ok _ (by omega : (0 : Int) ≤ n.Child.Limit), horder]
  exact walk_tail cmp fields b n.Child.Limit _ _ hloop

theorem walkReferences_first_matches (cmp : Assertions) (n : NodeProgram) (b : GitBuilder)
    (fields : List String) (hsel : selectFields b n.Child = .ok fields)
    (horder : n.Child.Order = none) (hlimit : 1 ≤ n.Child.Limit)
    (refs : List Reference) (hrefs : b.repo.NewReferenceIterator = .ok refs) :
    walkReferences cmp n b =
      (((refs.filter (fun c => n.Child.Where (b.setReference (some c)))).take
          n.Child.Limit.toNat).mapM (referenceRow b fields)).map
        (fun rows => printTable rows fields) := by
  have hloop := referenceLoop_rows n.Child fields b hsel refs b.currentReference
    (List.replicate n.Child.Limit.toNat none) 1 (le_refl 1) hlimit
  have hcap : (n.Child.Limit - 1 + 1).toNat = n.Child.Limit.toNat := by omega
  rw [hcap] at hloop
  simp only [walkReferences, hrefs, hsel, makeRows_ok _ (by omega : (0 : Int) ≤ n.Child.Limit),
    horder]
  exact walk_tail cmp fields b n.Child.Limit _ _ hloop

theorem walkRemotes_first_matches (cmp : Assertions) (n : NodeProgram) (b : GitBuilder)
    (fields : List String) (hsel : selectFields b n.Child = .ok fields)
    (horder : n.Child.Order = none) (hlimit : 1 ≤ n.Child.Limit)
    (names : List String) (remotes : List Remote) (hnames : b.repo.ListRemotes = .ok names)
    (hload : List.Forall₂ (fun name r => b.repo.LoadRemote name = .ok r) names remotes) :
    walkRemotes cmp n b =
      (((remotes.filter (fun c => n.Child.Where (b.setRemote (some c)))).take
          n.Child.Limit.toNat).mapM (remoteRow b fields)).map
        (fun rows => printTable rows fields) := by
  have hloop := remoteLoop_rows n.Child fields b names remotes hload b.currentRemote
    (List.replicate n.Child.Limit.toNat none) 1 (le_refl 1) hlimit
  have hcap : (n.Child.Limit - 1 + 1).toNat = n.Child.Limit.toNat := by omega
  rw [hcap] at hloop
  simp only [walkRemotes, hnames, hsel, makeRows_ok _ (by omega : (0 : Int) ≤ n.Child.Limit),
    horder]
  exact walk_tail cmp fields b n.Child.Limit _ _ hloop

/-- What a printed table is when its rows are the rows of the entities of a
list: the rows pair off with the entities in order, and no row is the nil
row when no entity has the nil row. -/
theorem printed_of_mapM {α : Type} (R : α → Except Failure tableRow)
    (hR : ∀ a r, R a = .ok r → r ≠ none) (l : List α) (fields : List String) (out : Printed)
    (h : (l.mapM R).map (fun rows => printTable rows fields) = .ok out) :
    out.fields = fields ∧ out.rows.length = l.length ∧ (∀ r ∈ out.rows, r ≠ none) ∧
      List.Forall₂ (fun a r => R a = .ok r) l out.rows := by
  cases hm : l.mapM R with
  | error e => rw [hm] at h; cases h
  | ok rows =>
    rw [hm] at h
    simp only [Except.map, Except.ok.injEq] at h
    subst h
    have hf := mapM_ok_forall₂ R l rows hm
    refine ⟨rfl, hf.length_eq.symm, ?_, hf⟩
    intro r hr
    simp only [printTable] at hr
    obtain ⟨i, hi, rfl⟩ := List.getElem_of_mem hr
    have hi' : i < l.length := by rw [hf.length_eq]; exact hi
    exact hR _ _ (List.Forall₂.get hf hi' hi)

theorem row_ne_none (extract : String → Except Failure String) (fields : List String)
    (r : tableRow) (h : (fillRow extract fields []).map some = .ok r) : r ≠ none := by
  obtain ⟨m, hm, _⟩ := fillRow_projection extract fields r h
  rw [hm]
  simp

/-- C1: with no ordering clause and a limit `L ≥ 1`, each of the three
walkers prints, under the requested field list, exactly the rows of the
first `min(L, number of matching entities)` entities that pass the filter,
in walker order, and fails with the failure of the first of these rows that
cannot be extracted.  Each row is the projection of its entity: a map whose
keys are the requested fields and that holds for each the value the
extractor returns.  So the slice `rows[len(rows)-counter+1:]` is in bounds,
the table has `min(L, matches)` rows and none is one of the `L` nil rows
that `make([]tableRow, s.Limit)` created. -/
theorem walkers_print_first_matches (cmp : Assertions) (n : NodeProgram) (b : GitBuilder)
    (fields : List String) (hsel : selectFields b n.Child = .ok fields)
    (horder : n.Child.Order = none) (hlimit : 1 ≤ n.Child.Limit) :
    (walkCommits cmp n b =
        (((b.repo.Walk.filter (fun c => n.Child.Where (b.setCommit (some c)))).take
            n.Child.Limit.toNat).mapM (commitRow b fields)).map
          (fun rows => printTable rows fields) ∧
      (∀ out, walkCommits cmp n b = .ok out →
        out.fields = fields ∧
        out.rows.length = min n.Child.Limit.toNat
          (b.repo.Walk.filter (fun c => n.Child.Where (b.setCommit (some c)))).length ∧
        (∀ r ∈ out.rows, r ≠ none)) ∧
      (∀ c r, commitRow b fields c = .ok r →
        ∃ m : GoMap String, r = some m ∧ (∀ f, f ∈ GoMap.keys m ↔ f ∈ fields) ∧
          ∀ f ∈ fields, ∃ v, metadataCommit b f (some c) = .ok v ∧
            GoMap.lookup m f = some v)) ∧
    (∀ refs, b.repo.NewReferenceIterator = .ok refs →
      walkReferences cmp n b =
        (((refs.filter (fun c => n.Child.Where (b.setReference (some c)))).take
            n.Child.Limit.toNat).mapM (referenceRow b fields)).map
          (fun rows => printTable rows fields) ∧
      (∀ out, walkReferences cmp n b = .ok out →
        out.fields = fields ∧
        out.rows.length = min n.Child.Limit.toNat
          (refs.filter (fun c => n.Child.Where (b.setReference (some c)))).length ∧
        (∀ r ∈ out.rows, r ≠ none)) ∧
      (∀ c r, referenceRow b fields c = .ok r →
        ∃ m : GoMap String, r = some m ∧ (∀ f, f ∈ GoMap.keys m ↔ f ∈ fields) ∧
          ∀ f ∈ fields, ∃ v, metadataReference b f (some c) = .ok v ∧
            GoMap.lookup m f = some v)) ∧
    (∀ names remotes, b.repo.ListRemotes = .ok names →
      List.Forall₂ (fun name r => b.repo.LoadRemote name = .ok r) names remotes →
      walkRemotes cmp n b =
        (((remotes.filter (fun c => n.Child.Where (b.setRemote (some c)))).take
            n.Child.Limit.toNat).mapM (remoteRow b fields)).map
          (fun rows => printTable rows fields) ∧
      (∀ out, walkRemotes cmp n b = .ok out →
        out.fields = fields ∧
        out.rows.length = min n.Child.Limit.toNat
          (remotes.filter (fun c => n.Child.Where (b.setRemote (some c)))).length ∧
        (∀ r ∈ out.rows, r ≠ none)) ∧
      (∀ c r, remoteRow b fields c = .ok r →
        ∃ m : GoMap String, r = some m ∧ (∀ f, f ∈ GoMap.keys m ↔ f ∈ fields) ∧
          ∀ f ∈ fields, ∃ v, metadataRemote b f (some c) = .ok v ∧
            GoMap.lookup m f = some v)) := by
  refine ⟨⟨walkCommits_first_matches cmp n b fields hsel horder hlimit, ?_, ?_⟩, ?_, ?_⟩
  · intro out hout
    rw [walkCommits_first_matches cmp n b fields hsel horder hlimit] at hout
    obtain ⟨h1, h2, h3, _⟩ := printed_of_mapM (commitRow b fields)
      (fun c r h => row_ne_none _ fields r h) _ fields out hout
    exact ⟨h1, by rw [h2, List.length_take], h3⟩
  · intro c r h
    exact fillRow_projection _ fields r h
  · intro refs hrefs
    have heq := walkReferences_first_matches cmp n b fields hsel horder hlimit refs hrefs
    refine ⟨heq, ?_, ?_⟩
    · intro out hout
      rw [heq] at hout
      obtain ⟨h1, h2, h3, _⟩ := printed_of_mapM (referenceRow b fields)
        (fun c r h => row_ne_none _ fields r h) _ fields out hout
      exact ⟨h1, by rw [h2, List.length_take], h3⟩
    · intro c r h
      exact fillRow_projection _ fields r h
  · intro names remotes hnames hload
    have heq := walkRemotes_first_matches cmp n b fields hsel horder hlimit names remotes
      hnames hload
    refine ⟨heq, ?_, ?_⟩
    · intro out hout
      rw [heq] at hout
      obtain ⟨h1, h2, h3, _⟩ := printed_of_mapM (remoteRow b fields)
        (fun c r h => row_ne_none _ fields r h) _ fields out hout
      exact ⟨h1, by rw [h2, List.length_take], h3⟩
    · intro c r h
      exact fillRow_projection _ fields r h

/-- Witness of C1: `select hash, message from commits limit 2` on the sample
repository prints the two commits, newest first, with the first line of
their messages. -/
theorem walkers_print_first_matches_witness :
    selectFields (boundBuilder "commits" sampleRepo)
        (plainQuery "commits" ["hash", "message"] 2).Child = .ok ["hash", "message"] ∧
    (plainQuery "commits" ["hash", "message"] 2).Child.Order = none ∧
    (1 : Int) ≤ (plainQuery "commits" ["hash", "message"] 2).Child.Limit ∧
    walkCommits stringAssertions (plainQuery "commits" ["hash", "message"] 2)
        (boundBuilder "commits" sampleRepo) =
      .ok { rows := [some [("hash", "c2"), ("message", "second")],
                     some [("hash", "c1"), ("message", "first")]],
            fields := ["hash", "message"] } :=
  ⟨rfl, rfl, by decide,
    (walkers_print_first_matches stringAssertions (plainQuery "commits" ["hash", "message"] 2)
      (boundBuilder "commits" sampleRepo) ["hash", "message"] rfl rfl (by decide)).1.1.trans rfl⟩

/-! ## The orderer only swaps -/

theorem swap_perm {α : Type} [DecidableEq α] (l : List α) (d : α) (i j : Nat)
    (hi : i < l.length) (hj : j < l.length) :
    ((l.set j (l.getD i d)).set i (l.getD j d)).Perm l := by
  rw [List.perm_iff_count]
  intro a
  have hgi : l.getD i d = l[i] := List.getD_eq_getElem _ _ hi
  have hgj : l.getD j d = l[j] := List.getD_eq_getElem _ _ hj
  have hi' : i < (l.set j l[i]).length := by simpa using hi
  have hmid : (l.set j l[i])[i] = l[i] := by
    rw [List.getElem_set]
    split <;> simp_all
  have hle : (if l[j] == a then 1 else 0) ≤ l.count a := by
    have := List.boole_getElem_le_countP (fun x => x == a) l j hj
    simpa [List.count_eq_countP] using this
  rw [hgi, hgj, List.count_set _ _ _ _ hi', List.count_set _ _ _ _ hj, hmid]
  generalize (if (l[i] == a) = true then 1 else 0) = x
  generalize (if (l[j] == a) = true then 1 else 0) = y at hle
  omega

theorem swapRows_perm (rows : List tableRow) (i j : Nat) (hi : i < rows.length)
    (hj : j < rows.length) : (swapRows rows i j).Perm rows :=
  swap_perm rows none i j hi hj

theorem orderInner_perm (orderer : String → String → Bool) (field : String) (i : Nat)
    (row : tableRow) (n : Nat) (rows : List tableRow) (hn : n = rows.length) (hi : i < n) :
    (orderInner orderer field i row n rows).Perm rows := by
  have key : ∀ (js : List Nat), (∀ j ∈ js, j < n) → ∀ rs : List tableRow, rs.Perm rows →
      (js.foldl
        (fun rows j =>
          let rowWalk := rows.getD j none
          if orderer (sprintCell rowWalk field) (sprintCell row field) then swapRows rows i j
          else rows) rs).Perm rows := by
    intro js
    induction js with
    | nil => intro _ rs h; exact h
    | cons j js ih =>
      intro hjs rs h
      rw [List.foldl_cons]
      apply ih (fun x hx => hjs x (List.mem_cons_of_mem _ hx))
      have hlen : rs.length = n := by rw [h.length_eq, hn]
      by_cases hc : orderer (sprintCell (rs.getD j none) field) (sprintCell row field) = true
      · simp only [hc, if_true]
        exact (swapRows_perm rs i j (by omega) (by have := hjs j (by simp); omega)).trans h
      · simp only [hc]
        exact h
  exact key (List.range n) (fun j hj => List.mem_range.1 hj) rows (List.Perm.refl _)

/-- The two loops of `orderTable` return a permutation of the rows. -/
theorem orderLoops_perm (orderer : String → String → Bool) (field : String)
    (rows : List tableRow) : (orderLoops orderer field rows).Perm rows := by
  have key : ∀ (is : List Nat), (∀ i ∈ is, i < rows.length) → ∀ rs : List tableRow,
      rs.Perm rows →
      (is.foldl (fun rs i => orderInner orderer field i (rs.getD i none) rows.length rs)
        rs).Perm rows := by
    intro is
    induction is with
    | nil => intro _ rs h; exact h
    | cons i is ih =>
      intro his rs h
      rw [List.foldl_cons]
      apply ih (fun x hx => his x (List.mem_cons_of_mem _ hx))
      exact (orderInner_perm orderer field i _ rows.length rs h.length_eq.symm
        (his i (by simp))).trans h
  exact key (List.range rows.length) (fun i hi => List.mem_range.1 hi) rows (List.Perm.refl _)

/-- When `orderTable` returns rows, they are a permutation of its input. -/
theorem orderTable_perm (cmp : Assertions) (g : GitBuilder) (rows out : List tableRow)
    (order : Option NodeOrder) (h : orderTable cmp g rows order = .ok out) : out.Perm rows := by
  cases order with
  | none =>
    simp only [orderTable, Except.ok.injEq] at h
    rw [← h]
  | some o =>
    simp only [orderTable] at h
    cases hc : checkField g o.Field with
    | error e => simp [hc] at h
    | ok u =>
      simp only [hc, Except.ok.injEq] at h
      rw [← h]
      exact orderLoops_perm _ _ _

/-! ## Remote load failures -/

/-- The remote loop reaches a name that fails to load when the names before
it load and the counter cannot pass the limit on them: it then fails, with
the load failure unless a row before it could not be extracted. -/
theorem remoteLoop_load_failure (s : NodeSelect) (fields : List String) (b : GitBuilder)
    (pre : List String) (rs : List Remote) (bad : String) (post : List String) (err : String)
    (hload : List.Forall₂ (fun name r => b.repo.LoadRemote name = .ok r) pre rs)
    (hbad : b.repo.LoadRemote bad = .error err) :
    ∀ (cur : Option Remote) (rows : List tableRow) (k : Int),
      (k + ((rs.filter (fun c => s.Where (b.setRemote (some c)))).length : Int) ≤ s.Limit ∨
        (rs.filter (fun c => s.Where (b.setRemote (some c)))).length = 0) →
      walkRemotes.loop s fields (pre ++ bad :: post)
          { builder := b.setRemote cur, rows := rows, counter := k } =
        match (rs.filter (fun c => s.Where (b.setRemote (some c)))).mapM (remoteRow b fields) with
        | .error e => .error e
        | .ok _ => .error (.fatal err) := by
  induction hload with
  | nil =>
    intro cur rows k _
    have hbad' : (b.setRemote cur).repo.LoadRemote bad = .error err := hbad
    rw [List.filter_nil, mapM_nil_ok]
    simp [walkRemotes.loop, hbad']
  | @cons name c names es hc _ ih =>
    intro cur rows k hk
    have hc' : (b.setRemote cur).repo.LoadRemote name = .ok c := hc
    rw [List.cons_append]
    by_cases hp : s.Where (b.setRemote (some c)) = true
    · rw [List.filter_cons_of_pos (by simpa using hp)] at hk ⊢
      have hk' : k + 1 + ((es.filter (fun c => s.Where (b.setRemote (some c)))).length : Int)
          ≤ s.Limit := by
        rcases hk with hk | hk
        · simp only [List.length_cons] at hk
          push_cast at hk
          omega
        · simp at hk
      cases hrow : fillRow (fun f => metadataRemote b f (some c)) fields [] with
      | error e =>
        rw [mapM_cons_error _ _ _ e (by simp [remoteRow, hrow, Except.map])]
        simp [walkRemotes.loop, hc', setRemote_setRemote, hp, metadataRemote_setRemote, hrow]
      | ok newRow =>
        rw [mapM_cons_ok _ _ _ (some newRow) (by simp [remoteRow, hrow, Except.map])]
        have hlim : ¬ k + 1 > s.Limit := by omega
        have hstep := ih (some c) (rows ++ [some newRow]) (k + 1) (Or.inl hk')
        simp only [walkRemotes.loop, hc', setRemote_setRemote, hp,
          metadataRemote_setRemote, hrow, hlim, if_true, if_false]
        rw [hstep]
        cases List.mapM (remoteRow b fields)
          (List.filter (fun c => s.Where (b.setRemote (some c))) es) <;> rfl
    · rw [List.filter_cons_of_neg (by simpa using hp)] at hk ⊢
      have hstep := ih (some c) rows k hk
      simp only [walkRemotes.loop, hc', setRemote_setRemote, hp]
      exact hstep

/-- C5, as stated, fails: with a limit of 1 the walker stops after `origin`,
never loads `broken`, whose load fails, and prints a row. -/
theorem load_failure_after_limit_unnoticed :
    sampleRepo.ListRemotes = .ok ["origin", "broken"] ∧
    sampleRepo.LoadRemote "broken" = .error "remote not found" ∧
    walkRemotes stringAssertions (plainQuery "remotes" ["url"] 1)
        (boundBuilder "remotes" sampleRepo) =
      .ok { rows := [some [("url", "git://example.org/origin")]], fields := ["url"] } :=
  ⟨rfl, rfl, rfl⟩

/-- C5, amended: in a remotes query, when the load of a configured remote
name fails, every name before it loads, and fewer than `Limit` of the
remotes before it pass the filter (or none does), the query ends in a
failure and prints no rows; the failure is that load failure whenever the
limit is not negative, the field list resolves and the rows of the matching
remotes before it extract. -/
theorem walkRemotes_load_failure (cmp : Assertions) (n : NodeProgram) (b : GitBuilder)
    (pre : List String) (rs : List Remote) (bad : String) (post : List String) (err : String)
    (hnames : b.repo.ListRemotes = .ok (pre ++ bad :: post))
    (hload : List.Forall₂ (fun name r => b.repo.LoadRemote name = .ok r) pre rs)
    (hbad : b.repo.LoadRemote bad = .error err)
    (hcount :
      ((rs.filter (fun c => n.Child.Where (b.setRemote (some c)))).length : Int) < n.Child.Limit ∨
      (rs.filter (fun c => n.Child.Where (b.setRemote (some c)))).length = 0) :
    (∃ e, walkRemotes cmp n b = .error e) ∧
    (∀ fields rows, selectFields b n.Child = .ok fields → 0 ≤ n.Child.Limit →
      (rs.filter (fun c => n.Child.Where (b.setRemote (some c)))).mapM (remoteRow b fields) =
        .ok rows →
      walkRemotes cmp n b = .error (.fatal err)) := by
  have hk : ∀ fields, walkRemotes.loop n.Child fields (pre ++ bad :: post)
      { builder := b, rows := List.replicate n.Child.Limit.toNat none, counter := 1 } =
      match (rs.filter (fun c => n.Child.Where (b.setRemote (some c)))).mapM
        (remoteRow b fields) with
      | .error e => .error e
      | .ok _ => .error (.fatal err) := by
    intro fields
    apply remoteLoop_load_failure n.Child fields b pre rs bad post err hload hbad b.currentRemote
    rcases hcount with h | h
    · left; omega
    · right; exact h
  refine ⟨?_, ?_⟩
  · cases hsel : selectFields b n.Child with
    | error e => exact ⟨e, by simp [walkRemotes, hnames, hsel]⟩
    | ok fields =>
      by_cases hlim : n.Child.Limit < 0
      · exact ⟨.panic "makeslice: len out of range",
          by simp only [walkRemotes, hnames, hsel, makeRows, hlim, if_true]⟩
      · cases hm : (rs.filter (fun c => n.Child.Where (b.setRemote (some c)))).mapM
          (remoteRow b fields) with
        | error e =>
          refine ⟨e, ?_⟩
          have := hk fields
          rw [hm] at this
          simp only [walkRemotes, hnames, hsel, makeRows, hlim, if_false, this]
        | ok rows =>
          refine ⟨.fatal err, ?_⟩
          have := hk fields
          rw [hm] at this
          simp only [walkRemotes, hnames, hsel, makeRows, hlim, if_false, this]
  · intro fields rows hsel hlim hm
    have := hk fields
    rw [hm] at this
    simp only [walkRemotes, hnames, hsel, makeRows_ok _ hlim, this]

/-- Witness of C5, amended: with a limit of 5 the walker reaches `broken`
after `origin` and the query ends with the load failure. -/
theorem walkRemotes_load_failure_witness :
    sampleRepo.ListRemotes = .ok (["origin"] ++ "broken" :: []) ∧
    sampleRepo.LoadRemote "broken" = .error "remote not found" ∧
    walkRemotes stringAssertions (plainQuery "remotes" ["url"] 5)
        (boundBuilder "remotes" sampleRepo) = .error (.fatal "remote not found") :=
  ⟨rfl, rfl,
    (walkRemotes_load_failure stringAssertions (plainQuery "remotes" ["url"] 5)
      (boundBuilder "remotes" sampleRepo) ["origin"] [sampleRemote "origin"] "broken" []
      "remote not found" rfl (List.Forall₂.cons rfl List.Forall₂.nil) rfl
      (Or.inl (by decide))).2 ["url"] [some [("url", "git://example.org/origin")]] rfl
      (by decide) rfl⟩

/-! ## Loops whose rows all extract -/

theorem row_ok_some (extract : String → Except Failure String) (fields : List String)
    (r : tableRow) (h : (fillRow extract fields []).map some = .ok r) :
    ∃ m, fillRow extract fields [] = .ok m ∧ r = some m := by
  cases hm : fillRow extract fields [] with
  | error e => rw [hm] at h; cases h
  | ok m =>
    rw [hm] at h
    simp only [Except.map, Except.ok.injEq] at h
    exact ⟨m, rfl, h.symm⟩

/-- When the row of every matching commit extracts and satisfies `P`, the
commit loop returns, whatever the limit, having appended rows that satisfy
`P` and counted them. -/
theorem iterate_total (s : NodeSelect) (fields : List String) (b : GitBuilder)
    (P : tableRow → Prop) (es : List Commit)
    (hR : ∀ c ∈ es, s.Where (b.setCommit (some c)) = true →
      ∃ r, commitRow b fields c = .ok r ∧ P r) :
    ∀ (cur : Option Commit) (rows : List tableRow) (k : Int),
      ∃ new : List tableRow,
        (Iterate (walkCommits.fn s fields) es
            { builder := b.setCommit cur, rows := rows, counter := k }).map WalkVars.observed =
          .ok (rows ++ new, k + (new.length : Int), b.tables, b.possibleTables) ∧
        ∀ r ∈ new, P r := by
  induction es with
  | nil =>
    intro cur rows k
    exact ⟨[], by simp [Iterate, Except.map, WalkVars.observed, setCommit_schema], by simp⟩
  | cons c es ih =>
    intro cur rows k
    have ih' := ih (fun x hx => hR x (List.mem_cons_of_mem _ hx))
    by_cases hp : s.Where (b.setCommit (some c)) = true
    · obtain ⟨r, hr, hPr⟩ := hR c (by simp) hp
      obtain ⟨m, hrow, rfl⟩ := row_ok_some _ fields r hr
      by_cases hlim : k + 1 > s.Limit
      · refine ⟨[some m], ?_, by simpa using hPr⟩
        simp [Iterate, walkCommits.fn, setCommit_setCommit, hp, metadataCommit_setCommit, hrow,
          Except.map, hlim, WalkVars.observed, setCommit_schema]
      · obtain ⟨new, hnew, hP⟩ := ih' (some c) (rows ++ [some m]) (k + 1)
        refine ⟨some m :: new, ?_, ?_⟩
        · simp only [Iterate, walkCommits.fn, setCommit_setCommit, hp, metadataCommit_setCommit,
            hrow, hlim, if_true, if_false]
          rw [hnew]
          simp only [List.append_assoc, List.singleton_append, List.length_cons]
          congr 3
          push_cast
          omega
        · intro x hx
          rcases List.mem_cons.1 hx with h | h
          · rw [h]; exact hPr
          · exact hP x h
    · by_cases hk : k > s.Limit
      · refine ⟨[], ?_, by simp⟩
        simp [Iterate, walkCommits.fn, setCommit_setCommit, hp, hk, Except.map,
          WalkVars.observed, setCommit_schema]
      · obtain ⟨new, hnew, hP⟩ := ih' (some c) rows k
        refine ⟨new, ?_, hP⟩
        simp only [Iterate, walkCommits.fn, setCommit_setCommit, hp, hk, if_false]
        exact hnew

/-- The reference loop, as `iterate_total`. -/
theorem referenceLoop_total (s : NodeSelect) (fields : List String) (b : GitBuilder)
    (hsel : selectFields b s = .ok fields) (P : tableRow → Prop) (es : List Reference)
    (hR : ∀ c ∈ es, s.Where (b.setReference (some c)) = true →
      ∃ r, referenceRow b fields c = .ok r ∧ P r) :
    ∀ (cur : Option Reference) (rows : List tableRow) (k : Int),
      ∃ new : List tableRow,
        (walkReferences.loop s es
            { builder := b.setReference cur, rows := rows, counter := k }).map
            WalkVars.observed =
          .ok (rows ++ new, k + (new.length : Int), b.tables, b.possibleTables) ∧
        ∀ r ∈ new, P r := by
  have hsel' : ∀ x, selectFields (b.setReference x) s = .ok fields := fun _ => hsel
  induction es with
  | nil =>
    intro cur rows k
    exact ⟨[], by simp [walkReferences.loop, Except.map, WalkVars.observed, setReference_schema],
      by simp⟩
  | cons c es ih =>
    intro cur rows k
    have ih' := ih (fun x hx => hR x (List.mem_cons_of_mem _ hx))
    by_cases hp : s.Where (b.setReference (some c)) = true
    · obtain ⟨r, hr, hPr⟩ := hR c (by simp) hp
      obtain ⟨m, hrow, rfl⟩ := row_ok_some _ fields r hr
      by_cases hlim : k + 1 > s.Limit
      · refine ⟨[some m], ?_, by simpa using hPr⟩
        simp [walkReferences.loop, setReference_setReference, hp, hsel',
          metadataReference_setReference, hrow, Except.map, hlim, WalkVars.observed,
          setReference_schema]
      · obtain ⟨new, hnew, hP⟩ := ih' (some c) (rows ++ [some m]) (k + 1)
        refine ⟨some m :: new, ?_, ?_⟩
        · simp only [walkReferences.loop, setReference_setReference, hp, hsel',
            metadataReference_setReference, hrow, hlim, if_true, if_false]
          rw [hnew]
          simp only [List.append_assoc, List.singleton_append, List.length_cons]
          congr 3
          push_cast
          omega
        · intro x hx
          rcases List.mem_cons.1 hx with h | h
          · rw [h]; exact hPr
          · exact hP x h
    · obtain ⟨new, hnew, hP⟩ := ih' (some c) rows k
      refine ⟨new, ?_, hP⟩
      simp only [walkReferences.loop, setReference_setReference, hp]
      exact hnew

/-- The remote loop, as `iterate_total`, over names that all load. -/
theorem remoteLoop_total (s : NodeSelect) (fields : List String) (b : GitBuilder)
    (P : tableRow → Prop) (names : List String) (es : List Remote)
    (hload : List.Forall₂ (fun name r => b.repo.LoadRemote name = .ok r) names es)
    (hR : ∀ c ∈ es, s.Where (b.setRemote (some c)) = true →
      ∃ r, remoteRow b fields c = .ok r ∧ P r) :
    ∀ (cur : Option Remote) (rows : List tableRow) (k : Int),
      ∃ new : List tableRow,
        (walkRemotes.loop s fields names
            { builder := b.setRemote cur, rows := rows, counter := k }).map
            WalkVars.observed =
          .ok (rows ++ new, k + (new.length : Int), b.tables, b.possibleTables) ∧
        ∀ r ∈ new, P r := by
  induction hload with
  | nil =>
    intro cur rows k
    exact ⟨[], by simp [walkRemotes.loop, Except.map, WalkVars.observed, setRemote_schema],
      by simp⟩
  | @cons name c names es hc _ ih =>
    intro cur rows k
    have hc' : (b.setRemote cur).repo.LoadRemote name = .ok c := hc
    have ih' := ih (fun x hx => hR x (List.mem_cons_of_mem _ hx))
    by_cases hp : s.Where (b.setRemote (some c)) = true
    · obtain ⟨r, hr, hPr⟩ := hR c (by simp) hp
      obtain ⟨m, hrow, rfl⟩ := row_ok_some _ fields r hr
      by_cases hlim : k + 1 > s.Limit
      · refine ⟨[some m], ?_, by simpa using hPr⟩
        simp [walkRemotes.loop, hc', setRemote_setRemote, hp, metadataRemote_setRemote, hrow,
          Except.map, hlim, WalkVars.observed, setRemote_schema]
      · obtain ⟨new, hnew, hP⟩ := ih' (some c) (rows ++ [some m]) (k + 1)
        refine ⟨some m :: new, ?_, ?_⟩
        · simp only [walkRemotes.loop, hc', setRemote_setRemote, hp, metadataRemote_setRemote,
            hrow, hlim, if_true, if_false]
          rw [hnew]
          simp only [List.append_assoc, List.singleton_append, List.length_cons]
          congr 3
          push_cast
          omega
        · intro x hx
          rcases List.mem_cons.1 hx with h | h
          · rw [h]; exact hPr
          · exact hP x h
    · obtain ⟨new, hnew, hP⟩ := ih' (some c) rows k
      refine ⟨new, ?_, hP⟩
      simp only [walkRemotes.loop, hc', setRemote_setRemote, hp]
      exact hnew

/-- An ordering clause whose field passes the check makes `orderTable`
return a permutation of the rows. -/
theorem orderTable_ok (cmp : Assertions) (g : GitBuilder) (rows : List tableRow)
    (order : Option NodeOrder) (h : ∀ o, order = some o → checkField g o.Field = .ok ()) :
    ∃ out, orderTable cmp g rows order = .ok out ∧ out.Perm rows := by
  cases order with
  | none => exact ⟨rows, rfl, List.Perm.refl _⟩
  | some o =>
    refine ⟨orderLoops (if o.Asc then cmp.Greater else cmp.Smaller) o.Field rows, ?_,
      orderLoops_perm _ _ _⟩
    simp [orderTable, h o rfl]

/-- The tail of a walker after a loop whose appended rows satisfy `P`. -/
theorem walk_tail_total (cmp : Assertions) (fields : List String) (order : Option NodeOrder)
    (b : GitBuilder) (limit : Int) (P : tableRow → Prop)
    (horder : ∀ o, order = some o → checkField b o.Field = .ok ())
    (res : Except Failure WalkVars) :
    (∃ new : List tableRow, res.map WalkVars.observed =
        .ok (List.replicate limit.toNat none ++ new, 1 + (new.length : Int), b.tables,
          b.possibleTables) ∧ ∀ r ∈ new, P r) →
    ∃ out : Printed,
      (match res with
        | .error e => .error e
        | .ok st =>
          match sliceFrom st.rows ((st.rows.length : Int) - st.counter + 1) with
          | .error e => .error e
          | .ok rowsSliced =>
            match orderTable cmp st.builder rowsSliced order with
            | .error e => .error e
            | .ok rowsSliced => .ok (printTable rowsSliced fields) :
          Except Failure Printed) = .ok out ∧
      out.fields = fields ∧ ∀ r ∈ out.rows, P r := by
  rintro ⟨new, hnew, hP⟩
  obtain ⟨sorted, hsorted, hperm⟩ := orderTable_ok cmp b new order horder
  refine ⟨printTable sorted fields, ?_, rfl, ?_⟩
  · rw [walk_tail_ok cmp fields order b limit res new hnew, hsorted]
    rfl
  · intro r hr
    exact hP r (hperm.mem_iff.1 hr)

/-! ## Wildcard queries -/

theorem checkField_of_declared (g : GitBuilder) (t : String) (declared : List String)
    (f : String) (hbound : g.tables = [(t, t)])
    (hdecl : GoMap.lookup g.possibleTables t = some declared)
    (hf : f = "*" ∨ f ∈ declared) : checkField g f = .ok () := by
  rcases hf with hf | hf
  · simp [checkField, GoMap.rangeFirstKey, hbound, GitBuilder.UseFieldFromTable,
      GitBuilder.isValidTable, hdecl, hf]
  · by_cases hs : f = "*"
    · simp [checkField, GoMap.rangeFirstKey, hbound, GitBuilder.UseFieldFromTable,
        GitBuilder.isValidTable, hdecl, hs]
    · simp [checkField, GoMap.rangeFirstKey, hbound, GitBuilder.UseFieldFromTable,
        GitBuilder.isValidTable, hdecl, hs, hf]

/-- Every field declared for `commits` has a branch in `metadataCommit`. -/
theorem commit_fields_extract (g : GitBuilder) (c : Commit) (f : String)
    (hf : f ∈ ["hash", "date", "author", "author_email", "committer", "committer_email",
      "message", "full_message"])
    (hcheck : checkField g f = .ok ()) : ∃ v, metadataCommit g f (some c) = .ok v := by
  simp only [List.mem_cons, List.mem_singleton, List.not_mem_nil, or_false] at hf
  rcases hf with h | h | h | h | h | h | h | h <;> subst h <;>
    simp [metadataCommit, hcheck, deref, Except.map]

/-- The fields `name`, `full_name` and `hash` have a branch in
`metadataReference`, and so has `type` for a reference that is a branch, a
remote or a tag. -/
theorem reference_fields_extract (g : GitBuilder) (c : Reference) (f : String)
    (hf : f ∈ ["name", "full_name", "type", "hash"])
    (hclass : f = "type" → c.IsBranch = true ∨ c.IsRemote = true ∨ c.IsTag = true)
    (hcheck : checkField g f = .ok ()) : ∃ v, metadataReference g f (some c) = .ok v := by
  simp only [List.mem_cons, List.mem_singleton, List.not_mem_nil, or_false] at hf
  rcases hf with h | h | h | h
  · subst h
    simp [metadataReference, hcheck, deref, Except.map]
  · subst h
    simp [metadataReference, hcheck, deref, Except.map]
  · subst h
    rcases hclass rfl with hb | hr | ht
    · exact ⟨REFERENCE_TYPE_BRANCH, by simp [metadataReference, hcheck, deref, hb]⟩
    · by_cases hb : c.IsBranch = true
      · exact ⟨REFERENCE_TYPE_BRANCH, by simp [metadataReference, hcheck, deref, hb]⟩
      · exact ⟨REFERENCE_TYPE_REMOTE, by simp [metadataReference, hcheck, deref, hb, hr]⟩
    · by_cases hb : c.IsBranch = true
      · exact ⟨REFERENCE_TYPE_BRANCH, by simp [metadataReference, hcheck, deref, hb]⟩
      · by_cases hr : c.IsRemote = true
        · exact ⟨REFERENCE_TYPE_REMOTE, by simp [metadataReference, hcheck, deref, hb, hr]⟩
        · exact ⟨REFERENCE_TYPE_TAG, by simp [metadataReference, hcheck, deref, hb, hr, ht]⟩
  · subst h
    simp [metadataReference, hcheck, deref, Except.map]

/-- Every field declared for `remotes` has a branch in `metadataRemote`. -/
theorem remote_fields_extract (g : GitBuilder) (c : Remote) (f : String)
    (hf : f ∈ ["name", "url", "push_url", "owner"])
    (hcheck : checkField g f = .ok ()) : ∃ v, metadataRemote g f (some c) = .ok v := by
  simp only [List.mem_cons, List.mem_singleton, List.not_mem_nil, or_false] at hf
  rcases hf with h | h | h | h <;> subst h <;>
    simp [metadataRemote, hcheck, deref, Except.map]

/-- On a list of distinct fields that all extract, the row is a map whose
keys are the list, in order. -/
theorem row_keys (extract : String → Except Failure String) (declared : List String)
    (hnd : declared.Nodup) (hok : ∀ f ∈ declared, ∃ v, extract f = .ok v) :
    ∃ r, (fillRow extract declared []).map some = .ok r ∧
      ∃ m : GoMap String, r = some m ∧ GoMap.keys m = declared := by
  obtain ⟨m, hm⟩ := fillRow_ok extract declared hok []
  refine ⟨some m, by rw [hm]; rfl, m, rfl, ?_⟩
  have := fillRow_keys extract declared [] m hnd (by simp [GoMap.keys]) hm
  simpa [GoMap.keys] using this

theorem walkCommits_total (cmp : Assertions) (n : NodeProgram) (g : GitBuilder)
    (fields : List String) (P : tableRow → Prop)
    (hsel : selectFields g n.Child = .ok fields) (hlimit : 0 ≤ n.Child.Limit)
    (horder : ∀ o, n.Child.Order = some o → checkField g o.Field = .ok ())
    (hR : ∀ c ∈ g.repo.Walk, ∃ r, commitRow g fields c = .ok r ∧ P r) :
    ∃ out, walkCommits cmp n g = .ok out ∧ out.fields = fields ∧ ∀ r ∈ out.rows, P r := by
  simp only [walkCommits, hsel, makeRows_ok _ hlimit]
  exact walk_tail_total cmp fields n.Child.Order g n.Child.Limit P horder _
    (iterate_total n.Child fields g P g.repo.Walk (fun c hc _ => hR c hc) g.currentCommit
      (List.replicate n.Child.Limit.toNat none) 1)

theorem walkReferences_total (cmp : Assertions) (n : NodeProgram) (g : GitBuilder)
    (fields : List String) (P : tableRow → Prop) (refs : List Reference)
    (hrefs : g.repo.NewReferenceIterator = .ok refs)
    (hsel : selectFields g n.Child = .ok fields) (hlimit : 0 ≤ n.Child.Limit)
    (horder : ∀ o, n.Child.Order = some o → checkField g o.Field = .ok ())
    (hR : ∀ c ∈ refs, ∃ r, referenceRow g fields c = .ok r ∧ P r) :
    ∃ out, walkReferences cmp n g = .ok out ∧ out.fields = fields ∧ ∀ r ∈ out.rows, P r := by
  simp only [walkReferences, hrefs, hsel, makeRows_ok _ hlimit]
  exact walk_tail_total cmp fields n.Child.Order g n.Child.Limit P horder _
    (referenceLoop_total n.Child fields g hsel P refs (fun c hc _ => hR c hc)
      g.currentReference (List.replicate n.Child.Limit.toNat none) 1)

theorem walkRemotes_total (cmp : Assertions) (n : NodeProgram) (g : GitBuilder)
    (fields : List String) (P : tableRow → Prop) (names : List String) (remotes : List Remote)
    (hnames : g.repo.ListRemotes = .ok names)
    (hload : List.Forall₂ (fun name r => g.repo.LoadRemote name = .ok r) names remotes)
    (hsel : selectFields g n.Child = .ok fields) (hlimit : 0 ≤ n.Child.Limit)
    (horder : ∀ o, n.Child.Order = some o → checkField g o.Field = .ok ())
    (hR : ∀ c ∈ remotes, ∃ r, remoteRow g fields c = .ok r ∧ P r) :
    ∃ out, walkRemotes cmp n g = .ok out ∧ out.fields = fields ∧ ∀ r ∈ out.rows, P r := by
  simp only [walkRemotes, hnames, hsel, makeRows_ok _ hlimit]
  exact walk_tail_total cmp fields n.Child.Order g n.Child.Limit P horder _
    (remoteLoop_total n.Child fields g P names remotes hload (fun c hc _ => hR c hc)
      g.currentRemote (List.replicate n.Child.Limit.toNat none) 1)

theorem runWalk_commits (cmp : Assertions) (n : NodeProgram) (b : GitBuilder)
    (rest : List String) (h : n.Child.Tables = "commits" :: rest) :
    runWalk cmp n b =
      (walkCommits cmp n { b with currentWalkType := WALK_COMMITS }).map some := by
  simp [runWalk, findWalkType, firstTable, h]

theorem runWalk_references (cmp : Assertions) (n : NodeProgram) (b : GitBuilder)
    (t : String) (rest : List String) (h : n.Child.Tables = t :: rest)
    (ht : t = "refs" ∨ t = "tags" ∨ t = "branches") :
    runWalk cmp n b =
      (walkReferences cmp n { b with currentWalkType := WALK_REFERENCES }).map some := by
  rcases ht with ht | ht | ht <;> subst ht <;>
    simp [runWalk, findWalkType, firstTable, h, WALK_REFERENCES, WALK_COMMITS, WALK_TREES]

theorem runWalk_remotes (cmp : Assertions) (n : NodeProgram) (b : GitBuilder)
    (rest : List String) (h : n.Child.Tables = "remotes" :: rest) :
    runWalk cmp n b =
      (walkRemotes cmp n { b with currentWalkType := WALK_REMOTES }).map some := by
  simp [runWalk, findWalkType, firstTable, h, WALK_REMOTES, WALK_COMMITS, WALK_TREES,
    WALK_REFERENCES]

theorem declared_cases (t : String) (declared : List String)
    (hdecl : GoMap.lookup PossibleTables t = some declared) :
    (t = "commits" ∧ declared = ["hash", "date", "author", "author_email", "committer",
        "committer_email", "message", "full_message"]) ∨
    (t = "refs" ∧ declared = ["name", "full_name", "type", "hash"]) ∨
    (t = "remotes" ∧ declared = ["name", "url", "push_url", "owner"]) ∨
    ((t = "tags" ∨ t = "branches") ∧ declared = ["name", "full_name", "hash"]) := by
  rcases lookup_possibleTables_cases t with h | h | h | h | h | h
  · rw [h] at hdecl; cases hdecl
  · subst h
    have : GoMap.lookup PossibleTables "commits" = some ["hash", "date", "author",
      "author_email", "committer", "committer_email", "message", "full_message"] := by decide
    rw [this] at hdecl
    injection hdecl with hdecl
    exact Or.inl ⟨rfl, hdecl.symm⟩
  · subst h
    have : GoMap.lookup PossibleTables "refs" = some ["name", "full_name", "type", "hash"] := by
      decide
    rw [this] at hdecl
    injection hdecl with hdecl
    exact Or.inr (Or.inl ⟨rfl, hdecl.symm⟩)
  · subst h
    have : GoMap.lookup PossibleTables "remotes" = some ["name", "url", "push_url", "owner"] := by
      decide
    rw [this] at hdecl
    injection hdecl with hdecl
    exact Or.inr (Or.inr (Or.inl ⟨rfl, hdecl.symm⟩))
  · subst h
    have : GoMap.lookup PossibleTables "tags" = some ["name", "full_name", "hash"] := by decide
    rw [this] at hdecl
    injection hdecl with hdecl
    exact Or.inr (Or.inr (Or.inr ⟨Or.inl rfl, hdecl.symm⟩))
  · subst h
    have : GoMap.lookup PossibleTables "branches" = some ["name", "full_name", "hash"] := by
      decide
    rw [this] at hdecl
    injection hdecl with hdecl
    exact Or.inr (Or.inr (Or.inr ⟨Or.inr rfl, hdecl.symm⟩))

/-- C9: for a declared table `t` bound under its own name and a wildcard
query on `t` (limit not negative, ordering field, if any, declared for `t`,
the reference iterator opening and every remote name loading where the walk
needs them): every field declared for `t` passes the field check and has a
branch in the extractor of the walk `t` is dispatched to (for `type` of
`refs`, on a reference that is a branch, a remote or a tag), so the run
does not fail; the column list handed to `printTable` is the field list
declared for `t`; and the keys of every printed row are exactly that list,
in declared order. -/
theorem wildcard_rows_have_declared_fields (cmp : Assertions) (n : NodeProgram)
    (b : GitBuilder) (t : String) (rest : List String) (declared : List String)
    (hschema : b.possibleTables = PossibleTables) (hbound : b.tables = [(t, t)])
    (hdecl : GoMap.lookup PossibleTables t = some declared)
    (htables : n.Child.Tables = t :: rest) (hwild : n.Child.WildCard = true)
    (hlimit : 0 ≤ n.Child.Limit)
    (horder : ∀ o, n.Child.Order = some o → o.Field = "*" ∨ o.Field ∈ declared)
    (hrefs : t = "refs" ∨ t = "tags" ∨ t = "branches" →
      ∃ refs, b.repo.NewReferenceIterator = .ok refs ∧
        (t = "refs" → ∀ r ∈ refs, r.IsBranch = true ∨ r.IsRemote = true ∨ r.IsTag = true))
    (hremotes : t = "remotes" →
      ∃ names remotes, b.repo.ListRemotes = .ok names ∧
        List.Forall₂ (fun name r => b.repo.LoadRemote name = .ok r) names remotes) :
    (∀ f ∈ declared, checkField b f = .ok ()) ∧
    (t = "commits" → ∀ (c : Commit), ∀ f ∈ declared,
      ∃ v, metadataCommit b f (some c) = .ok v) ∧
    (t = "refs" ∨ t = "tags" ∨ t = "branches" → ∀ (c : Reference),
      (t = "refs" → c.IsBranch = true ∨ c.IsRemote = true ∨ c.IsTag = true) →
      ∀ f ∈ declared, ∃ v, metadataReference b f (some c) = .ok v) ∧
    (t = "remotes" → ∀ (c : Remote), ∀ f ∈ declared,
      ∃ v, metadataRemote b f (some c) = .ok v) ∧
    ∃ out, runWalk cmp n b = .ok (some out) ∧ out.fields = declared ∧
      ∀ r ∈ out.rows, ∃ m : GoMap String, r = some m ∧ GoMap.keys m = declared := by
  have hcheck : ∀ g : GitBuilder, g.tables = b.tables → g.possibleTables = b.possibleTables →
      ∀ f, f = "*" ∨ f ∈ declared → checkField g f = .ok () := by
    intro g h1 h2 f hf
    exact checkField_of_declared g t declared f (by rw [h1, hbound])
      (by rw [h2, hschema]; exact hdecl) hf
  have hsel : ∀ g : GitBuilder, g.possibleTables = b.possibleTables →
      selectFields g n.Child = .ok declared := by
    intro g h2
    simp [selectFields, hwild, firstTable, htables, h2, hschema, hdecl]
  have hcommit : ∀ g : GitBuilder, g.tables = b.tables → g.possibleTables = b.possibleTables →
      t = "commits" → ∀ (c : Commit), ∀ f ∈ declared,
        ∃ v, metadataCommit g f (some c) = .ok v := by
    intro g h1 h2 ht c f hf
    rcases declared_cases t declared hdecl with ⟨_, hd⟩ | ⟨h, _⟩ | ⟨h, _⟩ | ⟨h | h, _⟩
    · exact commit_fields_extract g c f (by rw [← hd]; exact hf)
        (hcheck g h1 h2 f (Or.inr hf))
    all_goals (rw [ht] at h; exact absurd h (by decide))
  have hreference : ∀ g : GitBuilder, g.tables = b.tables →
      g.possibleTables = b.possibleTables → ∀ (c : Reference),
      (t = "refs" → c.IsBranch = true ∨ c.IsRemote = true ∨ c.IsTag = true) →
      t = "refs" ∨ t = "tags" ∨ t = "branches" →
      ∀ f ∈ declared, ∃ v, metadataReference g f (some c) = .ok v := by
    intro g h1 h2 c hclass ht f hf
    rcases declared_cases t declared hdecl with ⟨h, _⟩ | ⟨h, hd⟩ | ⟨h, _⟩ | ⟨h, hd⟩
    · rw [h] at ht; exact absurd ht (by decide)
    · exact reference_fields_extract g c f (by rw [← hd]; exact hf) (fun _ => hclass h)
        (hcheck g h1 h2 f (Or.inr hf))
    · rw [h] at ht; exact absurd ht (by decide)
    · have hf' : f ∈ ["name", "full_name", "hash"] := by rw [← hd]; exact hf
      refine reference_fields_extract g c f ?_ ?_ (hcheck g h1 h2 f (Or.inr hf))
      · simp only [List.mem_cons, List.mem_singleton, List.not_mem_nil, or_false] at hf' ⊢
        rcases hf' with h' | h' | h'
        · exact Or.inl h'
        · exact Or.inr (Or.inl h')
        · exact Or.inr (Or.inr (Or.inr h'))
      · intro hty
        rw [hty] at hf'
        exact absurd hf' (by decide)
  have hremote : ∀ g : GitBuilder, g.tables = b.tables → g.possibleTables = b.possibleTables →
      t = "remotes" → ∀ (c : Remote), ∀ f ∈ declared,
        ∃ v, metadataRemote g f (some c) = .ok v := by
    intro g h1 h2 ht c f hf
    rcases declared_cases t declared hdecl with ⟨h, _⟩ | ⟨h, _⟩ | ⟨_, hd⟩ | ⟨h | h, _⟩
    · rw [ht] at h; exact absurd h (by decide)
    · rw [ht] at h; exact absurd h (by decide)
    · exact remote_fields_extract g c f (by rw [← hd]; exact hf)
        (hcheck g h1 h2 f (Or.inr hf))
    all_goals (rw [ht] at h; exact absurd h (by decide))
  have hnd : declared.Nodup := by
    rcases declared_cases t declared hdecl with ⟨_, hd⟩ | ⟨_, hd⟩ | ⟨_, hd⟩ | ⟨_, hd⟩ <;>
      rw [hd] <;> decide
  refine ⟨fun f hf => hcheck b rfl rfl f (Or.inr hf), hcommit b rfl rfl,
    fun ht c hclass => hreference b rfl rfl c hclass ht, hremote b rfl rfl, ?_⟩
  have hfinish : ∀ res : Except Failure Printed,
      (∃ out, res = .ok out ∧ out.fields = declared ∧
        ∀ r ∈ out.rows, ∃ m : GoMap String, r = some m ∧ GoMap.keys m = declared) →
      ∃ out, res.map some = .ok (some out) ∧ out.fields = declared ∧
        ∀ r ∈ out.rows, ∃ m : GoMap String, r = some m ∧ GoMap.keys m = declared := by
    rintro res ⟨out, hres, h1, h2⟩
    exact ⟨out, by rw [hres]; rfl, h1, h2⟩
  rcases declared_cases t declared hdecl with ⟨ht, _⟩ | ⟨ht, _⟩ | ⟨ht, _⟩ | ⟨ht, _⟩
  · rw [runWalk_commits cmp n b rest (by rw [htables, ht])]
    apply hfinish
    apply walkCommits_total cmp n { b with currentWalkType := WALK_COMMITS } declared
      (fun r => ∃ m : GoMap String, r = some m ∧ GoMap.keys m = declared) (hsel _ rfl) hlimit
      (fun o ho => hcheck _ rfl rfl _ (horder o ho))
    intro c _
    exact row_keys _ declared hnd (hcommit _ rfl rfl ht c)
  · obtain ⟨refs, hiter, hclass⟩ := hrefs (Or.inl ht)
    rw [runWalk_references cmp n b t rest htables (Or.inl ht)]
    apply hfinish
    apply walkReferences_total cmp n { b with currentWalkType := WALK_REFERENCES } declared
      (fun r => ∃ m : GoMap String, r = some m ∧ GoMap.keys m = declared) refs hiter
      (hsel _ rfl) hlimit
      (fun o ho => hcheck _ rfl rfl _ (horder o ho))
    intro c hc
    exact row_keys _ declared hnd
      (hreference _ rfl rfl c (fun h => hclass h c hc) (Or.inl ht))
  · obtain ⟨names, remotes, hnames, hload⟩ := hremotes ht
    rw [runWalk_remotes cmp n b rest (by rw [htables, ht])]
    apply hfinish
    apply walkRemotes_total cmp n { b with currentWalkType := WALK_REMOTES } declared
      (fun r => ∃ m : GoMap String, r = some m ∧ GoMap.keys m = declared) names remotes
      hnames hload (hsel _ rfl) hlimit
      (fun o ho => hcheck _ rfl rfl _ (horder o ho))
    intro c _
    exact row_keys _ declared hnd (hremote _ rfl rfl ht c)
  · have ht' : t = "refs" ∨ t = "tags" ∨ t = "branches" := Or.inr ht
    obtain ⟨refs, hiter, hclass⟩ := hrefs ht'
    rw [runWalk_references cmp n b t rest htables ht']
    apply hfinish
    apply walkReferences_total cmp n { b with currentWalkType := WALK_REFERENCES } declared
      (fun r => ∃ m : GoMap String, r = some m ∧ GoMap.keys m = declared) refs hiter
      (hsel _ rfl) hlimit
      (fun o ho => hcheck _ rfl rfl _ (horder o ho))
    intro c hc
    exact row_keys _ declared hnd
      (hreference _ rfl rfl c (fun h => hclass h c hc) ht')

/-- Witness of C9: `select * from refs limit 10` on the sample repository
prints a table whose columns and row keys are `name, full_name, type,
hash`. -/
theorem wildcard_rows_have_declared_fields_witness :
    ∃ out, runWalk stringAssertions (wildcardQuery "refs" 10)
        (boundBuilder "refs" sampleRepo) = .ok (some out) ∧
      out.fields = ["name", "full_name", "type", "hash"] ∧
      ∀ r ∈ out.rows, ∃ m : GoMap String, r = some m ∧
        GoMap.keys m = ["name", "full_name", "type", "hash"] :=
  (wildcard_rows_have_declared_fields stringAssertions (wildcardQuery "refs" 10)
    (boundBuilder "refs" sampleRepo) "refs" [] ["name", "full_name", "type", "hash"]
    rfl rfl rfl rfl rfl (by decide) (fun _ h => nomatch h)
    (fun _ => ⟨[sampleBranch "master", sampleTag "v1"], rfl, fun _ => by decide⟩)
    (fun h => absurd h (by decide))).2.2.2.2

theorem wildcard_refs_example :
    runWalk stringAssertions (wildcardQuery "refs" 10) (boundBuilder "refs" sampleRepo) =
      .ok (some
        { rows := [some [("name", "master"), ("full_name", "refs/heads/master"),
                         ("type", "branch"), ("hash", "1f0c")],
                   some [("name", "v1"), ("full_name", "refs/tags/v1"),
                         ("type", "tag"), ("hash", "77ab")]],
          fields := ["name", "full_name", "type", "hash"] }) := rfl

/-! ## The `type` of a reference -/

/-- C11: when `type` passes the field check, `metadataReference` returns for
it `branch` for a reference that is a branch, otherwise `remote` for a
remote-tracking reference, otherwise `tag` for a tag; the result is always
one of these three strings, and the extraction fails (fatally, with
`Unexcpeted object` and the reference name) if and only if the reference is
neither a branch, nor a remote, nor a tag. -/
theorem metadataReference_type_spec (g : GitBuilder) (r : Reference)
    (hfield : checkField g "type" = .ok ()) :
    (r.IsBranch = true → metadataReference g "type" (some r) = .ok "branch") ∧
    (r.IsBranch = false → r.IsRemote = true →
      metadataReference g "type" (some r) = .ok "remote") ∧
    (r.IsBranch = false → r.IsRemote = false → r.IsTag = true →
      metadataReference g "type" (some r) = .ok "tag") ∧
    (r.IsBranch = false → r.IsRemote = false → r.IsTag = false →
      metadataReference g "type" (some r) =
        .error (.fatal ("Unexcpeted object " ++ r.Name ++ "\n"))) ∧
    ((∃ e, metadataReference g "type" (some r) = .error e) ↔
      (r.IsBranch = false ∧ r.IsRemote = false ∧ r.IsTag = false)) ∧
    (∀ v, metadataReference g "type" (some r) = .ok v →
      v = "branch" ∨ v = "remote" ∨ v = "tag") := by
  cases hb : r.IsBranch <;> cases hr : r.IsRemote <;> cases ht : r.IsTag <;>
    simp [metadataReference, hfield, deref, hb, hr, ht, REFERENCE_TYPE_BRANCH,
      REFERENCE_TYPE_REMOTE, REFERENCE_TYPE_TAG]

/-- Witness of C11: on `refs` the type of the tag `v1` is `tag`. -/
theorem metadataReference_type_spec_witness :
    checkField (boundBuilder "refs" sampleRepo) "type" = .ok () ∧
    metadataReference (boundBuilder "refs" sampleRepo) "type" (some (sampleTag "v1")) =
      .ok "tag" :=
  ⟨rfl, (metadataReference_type_spec (boundBuilder "refs" sampleRepo) (sampleTag "v1")
    rfl).2.2.1 rfl rfl rfl⟩

/-! ## The evaluation context -/

/-- C18: `metadata(f)` is `metadataCommit(f, currentCommit)` when the walk
type is `WALK_COMMITS`, `metadataReference(f, currentReference)` when it is
`WALK_REFERENCES` and `metadataRemote(f, currentRemote)` when it is
`WALK_REMOTES`, whatever the other two entity slots hold; for every other
walk type it fails fatally.  Each of `setCommit`, `setReference`,
`setRemote` writes its own slot and leaves every other field of the builder
as it was. -/
theorem metadata_dispatch (g : GitBuilder) (f : String) :
    (g.currentWalkType = WALK_COMMITS →
      ∀ (x : Option Reference) (y : Option Remote),
        metadata ((g.setReference x).setRemote y) f = metadataCommit g f g.currentCommit) ∧
    (g.currentWalkType = WALK_REFERENCES →
      ∀ (x : Option Commit) (y : Option Remote),
        metadata ((g.setCommit x).setRemote y) f =
          metadataReference g f g.currentReference) ∧
    (g.currentWalkType = WALK_REMOTES →
      ∀ (x : Option Commit) (y : Option Reference),
        metadata ((g.setCommit x).setReference y) f = metadataRemote g f g.currentRemote) ∧
    (g.currentWalkType ≠ WALK_COMMITS → g.currentWalkType ≠ WALK_REFERENCES →
      g.currentWalkType ≠ WALK_REMOTES → metadata g f = .error (.fatal "GOD!")) ∧
    (∀ x : Option Commit,
      (g.setCommit x).currentCommit = x ∧
      (g.setCommit x).currentReference = g.currentReference ∧
      (g.setCommit x).currentRemote = g.currentRemote ∧
      (g.setCommit x).currentWalkType = g.currentWalkType ∧
      (g.setCommit x).tables = g.tables ∧
      (g.setCommit x).possibleTables = g.possibleTables ∧
      (g.setCommit x).proxyTables = g.proxyTables ∧
      (g.setCommit x).repo = g.repo) ∧
    (∀ x : Option Reference,
      (g.setReference x).currentReference = x ∧
      (g.setReference x).currentCommit = g.currentCommit ∧
      (g.setReference x).currentRemote = g.currentRemote ∧
      (g.setReference x).currentWalkType = g.currentWalkType ∧
      (g.setReference x).tables = g.tables ∧
      (g.setReference x).possibleTables = g.possibleTables ∧
      (g.setReference x).proxyTables = g.proxyTables ∧
      (g.setReference x).repo = g.repo) ∧
    (∀ x : Option Remote,
      (g.setRemote x).currentRemote = x ∧
      (g.setRemote x).currentCommit = g.currentCommit ∧
      (g.setRemote x).currentReference = g.currentReference ∧
      (g.setRemote x).currentWalkType = g.currentWalkType ∧
      (g.setRemote x).tables = g.tables ∧
      (g.setRemote x).possibleTables = g.possibleTables ∧
      (g.setRemote x).proxyTables = g.proxyTables ∧
      (g.setRemote x).repo = g.repo) := by
  refine ⟨?_, ?_, ?_, ?_, ?_, ?_, ?_⟩
  · intro h x y
    have h' : ((g.setReference x).setRemote y).currentWalkType = WALK_COMMITS := h
    simp only [metadata, h', if_true]
    rfl
  · intro h x y
    have h' : ((g.setCommit x).setRemote y).currentWalkType = WALK_REFERENCES := h
    have h1 : WALK_REFERENCES ≠ WALK_COMMITS := by decide
    simp only [metadata, h', h1, if_true, if_false]
    rfl
  · intro h x y
    have h' : ((g.setCommit x).setReference y).currentWalkType = WALK_REMOTES := h
    have h1 : WALK_REMOTES ≠ WALK_COMMITS := by decide
    have h2 : WALK_REMOTES ≠ WALK_REFERENCES := by decide
    simp only [metadata, h', h1, h2, if_true, if_false]
    rfl
  · intro h1 h2 h3
    simp only [metadata, h1, h2, h3, if_false]
  · intro x
    exact ⟨rfl, rfl, rfl, rfl, rfl, rfl, rfl, rfl⟩
  · intro x
    exact ⟨rfl, rfl, rfl, rfl, rfl, rfl, rfl, rfl⟩
  · intro x
    exact ⟨rfl, rfl, rfl, rfl, rfl, rfl, rfl, rfl⟩

/-- Witness of C18: in a reference walk `metadata` reads the reference slot,
whatever commit and remote the other slots hold, and with the walk type
unset it fails. -/
theorem metadata_dispatch_witness :
    metadata
        ((({ boundBuilder "refs" sampleRepo with
              currentWalkType := WALK_REFERENCES,
              currentReference := some (sampleTag "v1") } : GitBuilder).setCommit
            (some (sampleCommit "c1" "first"))).setRemote (some (sampleRemote "origin")))
        "name" = .ok "v1" ∧
    metadata (boundBuilder "refs" sampleRepo) "name" = .error (.fatal "GOD!") :=
  ⟨((metadata_dispatch
      { boundBuilder "refs" sampleRepo with
        currentWalkType := WALK_REFERENCES,
        currentReference := some (sampleTag "v1") } "name").2.1 rfl
      (some (sampleCommit "c1" "first")) (some (sampleRemote "origin"))).trans rfl,
   (metadata_dispatch (boundBuilder "refs" sampleRepo) "name").2.2.2.1
     (by decide) (by decide) (by decide)⟩

/-! ## Table bindings -/

theorem lookup_possibleTables_some (t : String)
    (ht : t = "commits" ∨ t = "refs" ∨ t = "remotes" ∨ t = "branches" ∨ t = "tags") :
    ∃ declared, GoMap.lookup PossibleTables t = some declared := by
  rcases ht with h | h | h | h | h <;> subst h <;> exact ⟨_, rfl⟩

/-- C15: on the schema of `PossibleTables`, `WithTable(t, a)` fails if and
only if `t` is not one of `commits`, `refs`, `remotes`, `branches`, `tags`,
and then with the table-not-found error and without a new builder (the only
write, `g.tables[alias] = tableName`, comes after the two returns); on
success the binding from `a`, or from `t` when `a` is empty, to `t` is
written, every other binding reads as before, and no other field of the
builder changes. -/
theorem withTable_spec (g : GitBuilder) (t a : String)
    (hschema : g.possibleTables = PossibleTables) :
    ((∃ e, g.WithTable t a = .error e) ↔
      ¬ (t = "commits" ∨ t = "refs" ∨ t = "remotes" ∨ t = "branches" ∨ t = "tags")) ∧
    (∀ e, g.WithTable t a = .error e →
      e = throwRuntimeError ("Table '" ++ t ++ "' not found") 0) ∧
    (∀ g', g.WithTable t a = .ok g' →
      GoMap.lookup g'.tables (if a = "" then t else a) = some t ∧
      (∀ k, k ≠ (if a = "" then t else a) →
        GoMap.lookup g'.tables k = GoMap.lookup g.tables k) ∧
      g'.possibleTables = g.possibleTables ∧ g'.proxyTables = g.proxyTables ∧
      g'.repo = g.repo ∧ g'.currentWalkType = g.currentWalkType ∧
      g'.currentCommit = g.currentCommit ∧ g'.currentReference = g.currentReference ∧
      g'.currentRemote = g.currentRemote) := by
  rcases lookup_possibleTables_cases t with hnone | hsome
  · have hnot : ¬ (t = "commits" ∨ t = "refs" ∨ t = "remotes" ∨ t = "branches" ∨ t = "tags") := by
      intro h
      obtain ⟨d, hd⟩ := lookup_possibleTables_some t h
      rw [hnone] at hd
      cases hd
    have herr : g.WithTable t a = .error (throwRuntimeError ("Table '" ++ t ++ "' not found") 0) := by
      simp [GitBuilder.WithTable, GitBuilder.isValidTable, hschema, hnone]
    refine ⟨⟨fun _ => hnot, fun _ => ⟨_, herr⟩⟩, ?_, ?_⟩
    · intro e he
      rw [herr] at he
      injection he with he
      exact he.symm
    · intro g' hg'
      rw [herr] at hg'
      cases hg'
  · have hin : t = "commits" ∨ t = "refs" ∨ t = "remotes" ∨ t = "branches" ∨ t = "tags" := by
      rcases hsome with h | h | h | h | h
      · exact Or.inl h
      · exact Or.inr (Or.inl h)
      · exact Or.inr (Or.inr (Or.inl h))
      · exact Or.inr (Or.inr (Or.inr (Or.inr h)))
      · exact Or.inr (Or.inr (Or.inr (Or.inl h)))
    obtain ⟨d, hd⟩ := lookup_possibleTables_some t hin
    have hok : g.WithTable t a =
        .ok { g with tables := GoMap.store g.tables (if a = "" then t else a) t } := by
      simp [GitBuilder.WithTable, GitBuilder.isValidTable, hschema, hd]
    refine ⟨⟨?_, fun h => absurd hin h⟩, ?_, ?_⟩
    · rintro ⟨e, he⟩
      rw [hok] at he
      cases he
    · intro e he
      rw [hok] at he
      cases he
    · intro g' hg'
      rw [hok] at hg'
      injection hg' with hg'
      subst hg'
      refine ⟨lookup_store_self _ _ _, ?_, rfl, rfl, rfl, rfl, rfl, rfl, rfl⟩
      intro k hk
      exact lookup_store_other _ _ _ _ (Ne.symm hk)

/-- Witness of C15: on the fresh builder `trees` is refused and `commits`
under the alias `c` is bound. -/
theorem withTable_spec_witness :
    (GetGitBuilder sampleRepo).WithTable "trees" "" =
        .error (throwRuntimeError "Table 'trees' not found" 0) ∧
    ∃ g', (GetGitBuilder sampleRepo).WithTable "commits" "c" = .ok g' ∧
      GoMap.lookup g'.tables "c" = some "commits" :=
  ⟨by
    obtain ⟨e, he⟩ := (withTable_spec (GetGitBuilder sampleRepo) "trees" "" rfl).1.2 (by decide)
    rw [he, (withTable_spec (GetGitBuilder sampleRepo) "trees" "" rfl).2.1 e he]
    rfl,
   ⟨_, rfl, ((withTable_spec (GetGitBuilder sampleRepo) "commits" "c" rfl).2.2 _ rfl).1⟩⟩

/-- C14: after `WithTable("commits", "c")` on the fresh builder, the field
check of the extractors and of `orderTable` looks up the alias `c` as a
table and fails for `hash`, a field declared for `commits`; after
`WithTable("commits", "refs")` it validates against `refs`: `author`,
declared for `commits`, is refused and `type`, not declared for `commits`,
is accepted. -/
theorem alias_is_validated_as_table :
    (∃ g', (GetGitBuilder sampleRepo).WithTable "commits" "c" = .ok g' ∧
      metadataCommit g' "hash" (some (sampleCommit "c1" "first")) =
        .error (.fatal "Table 'c' not found") ∧
      orderTable stringAssertions g' [] (some { Field := "hash", Asc := true }) =
        .error (.fatal "Table 'c' not found")) ∧
    (∃ g', (GetGitBuilder sampleRepo).WithTable "commits" "refs" = .ok g' ∧
      metadataCommit g' "author" (some (sampleCommit "c1" "first")) =
        .error (.fatal "Table 'refs' has not field 'author'") ∧
      checkField g' "type" = .ok ()) :=
  ⟨⟨_, rfl, rfl, rfl⟩, ⟨_, rfl, rfl, rfl⟩⟩

/-! ## Validation of the ordering field -/

/-- C16, as stated, fails: the wildcard `*` is not a field declared for
`commits`, yet `orderTable` with the ordering field `*` passes the field
check and returns the rows. -/
theorem orderTable_accepts_wildcard_field :
    "*" ∉ declaredFields "commits" ∧
    orderTable stringAssertions (boundBuilder "commits" sampleRepo)
        [dateRow "2", dateRow "1"] (some { Field := "*", Asc := true }) =
      .ok [dateRow "2", dateRow "1"] :=
  ⟨by decide, rfl⟩

/-- C16, amended: on a builder whose table `t` is bound under its own name,
for every row list: an ordering field that is neither `*` nor declared for
`t` makes `orderTable` fail with the field-not-found error of the field
check instead of returning rows; an ordering field that is declared for `t`,
or is `*`, makes it return rows; and with no ordering clause the rows are
returned as they are, whatever the bindings. -/
theorem orderTable_validation (cmp : Assertions) (g : GitBuilder) (t : String)
    (declared : List String) (rows : List tableRow) (o : NodeOrder)
    (hbound : g.tables = [(t, t)])
    (hdecl : GoMap.lookup g.possibleTables t = some declared) :
    (o.Field ≠ "*" → o.Field ∉ declared →
      orderTable cmp g rows (some o) =
        .error (.fatal ("Table '" ++ t ++ "' has not field '" ++ o.Field ++ "'"))) ∧
    (o.Field = "*" ∨ o.Field ∈ declared →
      ∃ out, orderTable cmp g rows (some o) = .ok out) ∧
    (∀ g' : GitBuilder, orderTable cmp g' rows none = .ok rows) := by
  refine ⟨?_, ?_, fun _ => rfl⟩
  · intro hs hf
    simp [orderTable, checkField, GoMap.rangeFirstKey, hbound, GitBuilder.UseFieldFromTable,
      GitBuilder.isValidTable, hdecl, hs, hf, throwRuntimeError]
  · intro hf
    have hc := checkField_of_declared g t declared o.Field hbound hdecl hf
    obtain ⟨out, hout, _⟩ := orderTable_ok cmp g rows (some o)
      (fun o' ho => by cases ho; exact hc)
    exact ⟨out, hout⟩

/-- Witness of C16, amended: on `commits`, ordering by `url` fails, ordering
by `date` returns rows, also on the empty list. -/
theorem orderTable_validation_witness :
    orderTable stringAssertions (boundBuilder "commits" sampleRepo) []
        (some { Field := "url", Asc := true }) =
      .error (.fatal "Table 'commits' has not field 'url'") ∧
    ∃ out, orderTable stringAssertions (boundBuilder "commits" sampleRepo) []
        (some { Field := "date", Asc := false }) = .ok out :=
  ⟨((orderTable_validation stringAssertions (boundBuilder "commits" sampleRepo) "commits"
      _ [] { Field := "url", Asc := true } rfl rfl).1 (by decide) (by decide)).trans rfl,
   (orderTable_validation stringAssertions (boundBuilder "commits" sampleRepo) "commits"
      _ [] { Field := "date", Asc := false } rfl rfl).2.1 (Or.inr (by decide))⟩

/-! ## Ordering by a field the rows do not hold -/

theorem sprintCell_getD (rows : List tableRow) (field : String)
    (h : ∀ r ∈ rows, sprintCell r field = "<nil>") (j : Nat) :
    sprintCell (rows.getD j none) field = "<nil>" := by
  by_cases hj : j < rows.length
  · rw [List.getD_eq_getElem _ _ hj]
    exact h _ (List.getElem_mem hj)
  · rw [List.getD_eq_default _ _ (by omega)]
    rfl

/-- When no comparison of two keys of the rows holds, no swap is made. -/
theorem orderLoops_no_swap (orderer : String → String → Bool) (field : String)
    (rows : List tableRow)
    (h : ∀ i j, orderer (sprintCell (rows.getD j none) field)
      (sprintCell (rows.getD i none) field) = false) :
    orderLoops orderer field rows = rows := by
  have inner : ∀ (i : Nat) (js : List Nat),
      js.foldl
        (fun rs j =>
          let rowWalk := rs.getD j none
          if orderer (sprintCell rowWalk field) (sprintCell (rows.getD i none) field) then
            swapRows rs i j
          else rs) rows = rows := by
    intro i js
    induction js with
    | nil => rfl
    | cons j js ih =>
      rw [List.foldl_cons]
      simp only [h i j]
      exact ih
  have outer : ∀ is : List Nat,
      is.foldl (fun rs i => orderInner orderer field i (rs.getD i none) rows.length rs) rows =
        rows := by
    intro is
    induction is with
    | nil => rfl
    | cons i is ih =>
      rw [List.foldl_cons]
      have : orderInner orderer field i (rows.getD i none) rows.length rows = rows :=
        inner i (List.range rows.length)
      rw [this]
      exact ih
  exact outer (List.range rows.length)

theorem lexLt_irrefl (l : List Char) : lexLt l l = false := by
  induction l with
  | nil => rfl
  | cons a l ih => simp [lexLt, ih]

/-- C17: `orderTable` compares what the rows hold.  When the ordering field
passes the field check but no row holds it, as is the case for rows
projected on a field list without it, every key renders as `<nil>`, and
with comparisons that never hold between a string and itself `orderTable`
returns the rows in their input order, for an ascending and for a
descending clause. -/
theorem orderTable_absent_field_keeps_order (cmp : Assertions) (g : GitBuilder)
    (rows : List tableRow) (field : String) (asc : Bool)
    (hfield : checkField g field = .ok ())
    (habsent : ∀ r ∈ rows, ∀ m : GoMap String, r = some m → GoMap.lookup m field = none)
    (hirr : ∀ x, cmp.Greater x x = false ∧ cmp.Smaller x x = false) :
    (∀ r ∈ rows, sprintCell r field = "<nil>") ∧
    orderTable cmp g rows (some { Field := field, Asc := asc }) = .ok rows ∧
    (∀ (extract : String → Except Failure String) (fields : List String) (r : tableRow),
      field ∉ fields → (fillRow extract fields []).map some = .ok r →
      ∀ m : GoMap String, r = some m → GoMap.lookup m field = none) := by
  have hkeys : ∀ r ∈ rows, sprintCell r field = "<nil>" := by
    intro r hr
    cases r with
    | none => rfl
    | some m => simp [sprintCell, habsent _ hr m rfl]
  refine ⟨hkeys, ?_, ?_⟩
  · simp only [orderTable, hfield]
    congr 1
    apply orderLoops_no_swap
    intro i j
    rw [sprintCell_getD rows field hkeys i, sprintCell_getD rows field hkeys j]
    cases asc
    · simpa using (hirr "<nil>").2
    · simpa using (hirr "<nil>").1
  · intro extract fields r hnot hr m hm
    obtain ⟨m', hm', hr'⟩ := row_ok_some extract fields r hr
    rw [hr'] at hm
    injection hm with hm
    subst hm
    rw [(fillRow_lookup extract fields [] m' hm').2 field hnot]
    rfl

/-- Witness of C17: rows that hold only `hash`, ordered by `date` on
`commits`, come back in their input order although the commit dates would
order them otherwise. -/
theorem orderTable_absent_field_keeps_order_witness :
    orderTable stringAssertions (boundBuilder "commits" sampleRepo)
        [some [("hash", "c2")], some [("hash", "c1")]]
        (some { Field := "date", Asc := true }) =
      .ok [some [("hash", "c2")], some [("hash", "c1")]] :=
  (orderTable_absent_field_keeps_order stringAssertions (boundBuilder "commits" sampleRepo)
    [some [("hash", "c2")], some [("hash", "c1")]] "date" true rfl (by decide)
    (fun x => ⟨lexLt_irrefl x.data, lexLt_irrefl x.data⟩)).2.1

/-! ## The prefix a walker visits -/

theorem prefixThroughNth_zero {α : Type} (p : α → Bool) (es : List α) :
    prefixThroughNth p es 0 = [] := by
  cases es <;> rfl

theorem prefixThroughNth_isPrefix {α : Type} (p : α → Bool) (es : List α) :
    ∀ n, ∃ rest, es = prefixThroughNth p es n ++ rest := by
  induction es with
  | nil => intro n; exact ⟨[], rfl⟩
  | cons x xs ih =>
    intro n
    cases n with
    | zero => exact ⟨x :: xs, rfl⟩
    | succ n =>
      obtain ⟨rest, hrest⟩ := ih (if p x then n else n + 1)
      exact ⟨rest, by simp only [prefixThroughNth, List.cons_append, ← hrest]⟩

theorem prefixThroughNth_count {α : Type} (p : α → Bool) (es : List α) :
    ∀ n, ((prefixThroughNth p es n).filter p).length = min n (es.filter p).length := by
  induction es with
  | nil => intro n; simp [prefixThroughNth]
  | cons x xs ih =>
    intro n
    cases n with
    | zero => simp [prefixThroughNth]
    | succ n =>
      by_cases hx : p x = true
      · simp only [prefixThroughNth, hx, if_true, List.filter_cons_of_pos, List.length_cons, ih n]
        omega
      · have hx' : p x = false := by simpa using hx
        simp only [prefixThroughNth, hx', List.filter_cons_of_neg hx]
        exact ih (n + 1)

theorem prefixThroughNth_all {α : Type} (p : α → Bool) (es : List α) :
    ∀ n, (es.filter p).length < n → prefixThroughNth p es n = es := by
  induction es with
  | nil => intro n _; rfl
  | cons x xs ih =>
    intro n hn
    cases n with
    | zero => omega
    | succ n =>
      by_cases hx : p x = true
      · simp only [List.filter_cons_of_pos hx, List.length_cons] at hn
        simp only [prefixThroughNth, hx, if_true, ih n (by omega)]
      · simp only [List.filter_cons_of_neg hx] at hn
        have hx' : p x = false := by simpa using hx
        simp only [prefixThroughNth, hx']
        rw [show (if false = true then n else n + 1) = n + 1 from rfl, ih (n + 1) hn]

theorem prefixThroughNth_ends {α : Type} (p : α → Bool) (es : List α) :
    ∀ n, 0 < n → n ≤ (es.filter p).length →
      ∃ pre x, prefixThroughNth p es n = pre ++ [x] ∧ p x = true := by
  induction es with
  | nil => intro n h0 hn; simp at hn; omega
  | cons x xs ih =>
    intro n h0 hn
    cases n with
    | zero => omega
    | succ n =>
      by_cases hx : p x = true
      · simp only [List.filter_cons_of_pos hx, List.length_cons] at hn
        by_cases hz : n = 0
        · subst hz
          exact ⟨[], x, by simp [prefixThroughNth, hx, prefixThroughNth_zero], hx⟩
        · obtain ⟨pre, y, hpre, hy⟩ := ih n (by omega) (by omega)
          exact ⟨x :: pre, y, by simp [prefixThroughNth, hx, hpre], hy⟩
      · simp only [List.filter_cons_of_neg hx] at hn
        obtain ⟨pre, y, hpre, hy⟩ := ih (n + 1) (by omega) hn
        exact ⟨x :: pre, y, by simp [prefixThroughNth, hx, hpre], hy⟩

/-- The commit loop has the same outcome on the commits it visits as on the
whole sequence. -/
theorem iterate_visited_same (fn : WalkVars → Commit → Except Failure (WalkVars × Bool))
    (es : List Commit) : ∀ st, Iterate fn (Iterate.visited fn es st) st = Iterate fn es st := by
  induction es with
  | nil => intro st; rfl
  | cons c es ih =>
    intro st
    cases h : fn st c with
    | error e => simp [Iterate.visited, Iterate, h]
    | ok res =>
      obtain ⟨st', continues⟩ := res
      cases continues with
      | true => simp [Iterate.visited, Iterate, h, ih st']
      | false => simp [Iterate.visited, Iterate, h]

/-- While the counter has not passed the limit and the rows of the matching
commits extract, the commit loop visits the prefix that ends at the
`Limit - counter + 1`-th matching commit. -/
theorem iterate_visited (s : NodeSelect) (fields : List String) (b : GitBuilder)
    (es : List Commit)
    (hR : ∀ c ∈ es, s.Where (b.setCommit (some c)) = true →
      ∃ r, commitRow b fields c = .ok r) :
    ∀ (cur : Option Commit) (rows : List tableRow) (k : Int), 1 ≤ k → k ≤ s.Limit →
      Iterate.visited (walkCommits.fn s fields) es
          { builder := b.setCommit cur, rows := rows, counter := k } =
        prefixThroughNth (fun c => s.Where (b.setCommit (some c))) es
          (s.Limit - k + 1).toNat := by
  induction es with
  | nil => intro cur rows k _ _; rfl
  | cons c es ih =>
    intro cur rows k h1 h2
    have ih' := ih (fun x hx => hR x (List.mem_cons_of_mem _ hx))
    have hcap : (s.Limit - k + 1).toNat = (s.Limit - k).toNat + 1 := by omega
    rw [hcap]
    by_cases hp : s.Where (b.setCommit (some c)) = true
    · obtain ⟨r, hr⟩ := hR c (by simp) hp
      obtain ⟨m, hrow, _⟩ := row_ok_some _ fields r hr
      by_cases hlim : k + 1 > s.Limit
      · have hz : (s.Limit - k).toNat = 0 := by omega
        simp [Iterate.visited, walkCommits.fn, setCommit_setCommit, hp,
          metadataCommit_setCommit, hrow, hlim, prefixThroughNth, hz, prefixThroughNth_zero]
      · have hstep := ih' (some c) (rows ++ [some m]) (k + 1) (by omega) (by omega)
        have hcap2 : (s.Limit - (k + 1) + 1).toNat = (s.Limit - k).toNat := by omega
        rw [hcap2] at hstep
        simp [Iterate.visited, walkCommits.fn, setCommit_setCommit, hp,
          metadataCommit_setCommit, hrow, hlim, prefixThroughNth, hstep]
    · have hk : ¬ k > s.Limit := by omega
      have hstep := ih' (some c) rows k h1 h2
      rw [hcap] at hstep
      simp [Iterate.visited, walkCommits.fn, setCommit_setCommit, hp, hk, prefixThroughNth,
        hstep]

theorem commitRow_hash_ok (c : Commit) :
    ∃ r, commitRow (boundBuilder "commits" sampleRepo) ["hash"] c = .ok r :=
  ⟨some [("hash", c.Id)], rfl⟩

/-- The loop `walkReferences` runs is the `for` loop over its body. -/
theorem referenceLoop_eq_forRange (s : NodeSelect) (es : List Reference) :
    ∀ st, walkReferences.loop s es st = forRange (walkReferences.body s) es st := by
  induction es with
  | nil => intro st; rfl
  | cons c es ih =>
    intro st
    by_cases hp : s.Where (st.builder.setReference (some c)) = true
    · cases hsel : selectFields (st.builder.setReference (some c)) s with
      | error e => simp [walkReferences.loop, forRange, walkReferences.body, hp, hsel]
      | ok fields =>
        cases hrow : fillRow
            (fun f => metadataReference (st.builder.setReference (some c)) f (some c))
            fields [] with
        | error e => simp [walkReferences.loop, forRange, walkReferences.body, hp, hsel, hrow]
        | ok newRow =>
          by_cases hlim : st.counter + 1 > s.Limit
          · simp [walkReferences.loop, forRange, walkReferences.body, hp, hsel, hrow, hlim]
          · simp [walkReferences.loop, forRange, walkReferences.body, hp, hsel, hrow, hlim, ih]
    · simp [walkReferences.loop, forRange, walkReferences.body, hp, ih]

/-- The loop `walkRemotes` runs is the `for` loop over its body. -/
theorem remoteLoop_eq_forRange (s : NodeSelect) (fields : List String) (es : List String) :
    ∀ st, walkRemotes.loop s fields es st = forRange (walkRemotes.body s fields) es st := by
  induction es with
  | nil => intro st; rfl
  | cons c es ih =>
    intro st
    cases hload : st.builder.repo.LoadRemote c with
    | error e => simp [walkRemotes.loop, forRange, walkRemotes.body, hload]
    | ok object =>
      by_cases hp : s.Where (st.builder.setRemote (some object)) = true
      · cases hrow : fillRow
            (fun f => metadataRemote (st.builder.setRemote (some object)) f (some object))
            fields [] with
        | error e => simp [walkRemotes.loop, forRange, walkRemotes.body, hload, hp, hrow]
        | ok newRow =>
          by_cases hlim : st.counter + 1 > s.Limit
          · simp [walkRemotes.loop, forRange, walkRemotes.body, hload, hp, hrow, hlim]
          · simp [walkRemotes.loop, forRange, walkRemotes.body, hload, hp, hrow, hlim, ih]
      · simp [walkRemotes.loop, forRange, walkRemotes.body, hload, hp, ih]

/-- While the counter has not passed the limit and the rows of the matching
references extract, the body of the reference loop runs on the prefix that
ends at the `Limit - counter + 1`-th matching reference. -/
theorem referenceBody_visited (s : NodeSelect) (fields : List String) (b : GitBuilder)
    (hsel : selectFields b s = .ok fields) (es : List Reference)
    (hR : ∀ c ∈ es, s.Where (b.setReference (some c)) = true →
      ∃ r, referenceRow b fields c = .ok r) :
    ∀ (cur : Option Reference) (rows : List tableRow) (k : Int), 1 ≤ k → k ≤ s.Limit →
      forRange.visited (walkReferences.body s) es
          { builder := b.setReference cur, rows := rows, counter := k } =
        prefixThroughNth (fun c => s.Where (b.setReference (some c))) es
          (s.Limit - k + 1).toNat := by
  have hsel' : ∀ x, selectFields (b.setReference x) s = .ok fields := fun _ => hsel
  induction es with
  | nil => intro cur rows k _ _; rfl
  | cons c es ih =>
    intro cur rows k h1 h2
    have ih' := ih (fun x hx => hR x (List.mem_cons_of_mem _ hx))
    have hcap : (s.Limit - k + 1).toNat = (s.Limit - k).toNat + 1 := by omega
    rw [hcap]
    by_cases hp : s.Where (b.setReference (some c)) = true
    · obtain ⟨r, hr⟩ := hR c (by simp) hp
      obtain ⟨m, hrow, _⟩ := row_ok_some _ fields r hr
      by_cases hlim : k + 1 > s.Limit
      · have hz : (s.Limit - k).toNat = 0 := by omega
        simp [forRange.visited, walkReferences.body, setReference_setReference, hp, hsel',
          metadataReference_setReference, hrow, hlim, prefixThroughNth, hz,
          prefixThroughNth_zero]
      · have hstep := ih' (some c) (rows ++ [some m]) (k + 1) (by omega) (by omega)
        have hcap2 : (s.Limit - (k + 1) + 1).toNat = (s.Limit - k).toNat := by omega
        rw [hcap2] at hstep
        simp [forRange.visited, walkReferences.body, setReference_setReference, hp, hsel',
          metadataReference_setReference, hrow, hlim, prefixThroughNth, hstep]
    · have hstep := ih' (some c) rows k h1 h2
      rw [hcap] at hstep
      simp [forRange.visited, walkReferences.body, setReference_setReference, hp,
        prefixThroughNth, hstep]

/-- The body of the remote loop, as `referenceBody_visited`, over names that
all load: the names it passes to `LoadRemote` are those of the visited
remotes. -/
theorem remoteBody_visited (s : NodeSelect) (fields : List String) (b : GitBuilder)
    (names : List String) (es : List Remote)
    (hload : List.Forall₂ (fun name r => b.repo.LoadRemote name = .ok r) names es)
    (hR : ∀ c ∈ es, s.Where (b.setRemote (some c)) = true →
      ∃ r, remoteRow b fields c = .ok r) :
    ∀ (cur : Option Remote) (rows : List tableRow) (k : Int), 1 ≤ k → k ≤ s.Limit →
      forRange.visited (walkRemotes.body s fields) names
          { builder := b.setRemote cur, rows := rows, counter := k } =
        names.take (prefixThroughNth (fun c => s.Where (b.setRemote (some c))) es
          (s.Limit - k + 1).toNat).length := by
  induction hload with
  | nil => intro cur rows k _ _; rfl
  | @cons name c names es hc _ ih =>
    intro cur rows k h1 h2
    have hc' : (b.setRemote cur).repo.LoadRemote name = .ok c := hc
    have ih' := ih (fun x hx => hR x (List.mem_cons_of_mem _ hx))
    have hcap : (s.Limit - k + 1).toNat = (s.Limit - k).toNat + 1 := by omega
    rw [hcap]
    by_cases hp : s.Where (b.setRemote (some c)) = true
    · obtain ⟨r, hr⟩ := hR c (by simp) hp
      obtain ⟨m, hrow, _⟩ := row_ok_some _ fields r hr
      by_cases hlim : k + 1 > s.Limit
      · have hz : (s.Limit - k).toNat = 0 := by omega
        simp [forRange.visited, walkRemotes.body, hc', setRemote_setRemote, hp,
          metadataRemote_setRemote, hrow, hlim, prefixThroughNth, hz, prefixThroughNth_zero]
      · have hstep := ih' (some c) (rows ++ [some m]) (k + 1) (by omega) (by omega)
        have hcap2 : (s.Limit - (k + 1) + 1).toNat = (s.Limit - k).toNat := by omega
        rw [hcap2] at hstep
        simp [forRange.visited, walkRemotes.body, hc', setRemote_setRemote, hp,
          metadataRemote_setRemote, hrow, hlim, prefixThroughNth, hstep]
    · have hstep := ih' (some c) rows k h1 h2
      rw [hcap] at hstep
      simp [forRange.visited, walkRemotes.body, hc', setRemote_setRemote, hp,
        prefixThroughNth, hstep]

/-- Once the prefix that ends at the last matching commit the limit admits
has been walked, `Iterate` has returned: whatever commits follow that
prefix, the outcome is the one on the whole walk. -/
theorem iterate_ignores_rest (s : NodeSelect) (fields : List String) (b : GitBuilder)
    (es : List Commit)
    (hR : ∀ c ∈ es, s.Where (b.setCommit (some c)) = true →
      ∃ r, commitRow b fields c = .ok r) :
    ∀ (cur : Option Commit) (rows : List tableRow) (k : Int), 1 ≤ k → k ≤ s.Limit →
      (s.Limit - k + 1).toNat ≤ (es.filter (fun c => s.Where (b.setCommit (some c)))).length →
      ∀ rest : List Commit,
        Iterate (walkCommits.fn s fields)
            (prefixThroughNth (fun c => s.Where (b.setCommit (some c))) es
              (s.Limit - k + 1).toNat ++ rest)
            { builder := b.setCommit cur, rows := rows, counter := k } =
          Iterate (walkCommits.fn s fields) es
            { builder := b.setCommit cur, rows := rows, counter := k } := by
  induction es with
  | nil =>
    intro cur rows k h1 h2 hm
    simp only [List.filter_nil, List.length_nil] at hm
    omega
  | cons c es ih =>
    intro cur rows k h1 h2 hm rest
    have ih' := ih (fun x hx => hR x (List.mem_cons_of_mem _ hx))
    have hcap : (s.Limit - k + 1).toNat = (s.Limit - k).toNat + 1 := by omega
    rw [hcap] at hm ⊢
    by_cases hp : s.Where (b.setCommit (some c)) = true
    · obtain ⟨r, hr⟩ := hR c (by simp) hp
      obtain ⟨m, hrow, _⟩ := row_ok_some _ fields r hr
      rw [List.filter_cons_of_pos (by simpa using hp), List.length_cons] at hm
      by_cases hlim : k + 1 > s.Limit
      · have hz : (s.Limit - k).toNat = 0 := by omega
        simp [Iterate, walkCommits.fn, setCommit_setCommit, hp, metadataCommit_setCommit,
          hrow, hlim, prefixThroughNth, hz, prefixThroughNth_zero]
      · have hcap2 : (s.Limit - (k + 1) + 1).toNat = (s.Limit - k).toNat := by omega
        have hstep := ih' (some c) (rows ++ [some m]) (k + 1) (by omega) (by omega)
          (by rw [hcap2]; omega) rest
        rw [hcap2] at hstep
        simp [Iterate, walkCommits.fn, setCommit_setCommit, hp, metadataCommit_setCommit,
          hrow, hlim, prefixThroughNth, hstep]
    · rw [List.filter_cons_of_neg (by simpa using hp)] at hm
      have hk : ¬ k > s.Limit := by omega
      have hstep := ih' (some c) rows k h1 h2 (by rw [hcap]; exact hm) rest
      rw [hcap] at hstep
      simp [Iterate, walkCommits.fn, setCommit_setCommit, hp, hk, prefixThroughNth, hstep]

/-- The reference loop, as `iterate_ignores_rest`: the loop has taken its
`break`, whatever references the iterator would yield next. -/
theorem referenceLoop_ignores_rest (s : NodeSelect) (fields : List String) (b : GitBuilder)
    (hsel : selectFields b s = .ok fields) (es : List Reference)
    (hR : ∀ c ∈ es, s.Where (b.setReference (some c)) = true →
      ∃ r, referenceRow b fields c = .ok r) :
    ∀ (cur : Option Reference) (rows : List tableRow) (k : Int), 1 ≤ k → k ≤ s.Limit →
      (s.Limit - k + 1).toNat ≤
        (es.filter (fun c => s.Where (b.setReference (some c)))).length →
      ∀ rest : List Reference,
        walkReferences.loop s
            (prefixThroughNth (fun c => s.Where (b.setReference (some c))) es
              (s.Limit - k + 1).toNat ++ rest)
            { builder := b.setReference cur, rows := rows, counter := k } =
          walkReferences.loop s es
            { builder := b.setReference cur, rows := rows, counter := k } := by
  have hsel' : ∀ x, selectFields (b.setReference x) s = .ok fields := fun _ => hsel
  induction es with
  | nil =>
    intro cur rows k h1 h2 hm
    simp only [List.filter_nil, List.length_nil] at hm
    omega
  | cons c es ih =>
    intro cur rows k h1 h2 hm rest
    have ih' := ih (fun x hx => hR x (List.mem_cons_of_mem _ hx))
    have hcap : (s.Limit - k + 1).toNat = (s.Limit - k).toNat + 1 := by omega
    rw [hcap] at hm ⊢
    by_cases hp : s.Where (b.setReference (some c)) = true
    · obtain ⟨r, hr⟩ := hR c (by simp) hp
      obtain ⟨m, hrow, _⟩ := row_ok_some _ fields r hr
      rw [List.filter_cons_of_pos (by simpa using hp), List.length_cons] at hm
      by_cases hlim : k + 1 > s.Limit
      · have hz : (s.Limit - k).toNat = 0 := by omega
        simp [walkReferences.loop, setReference_setReference, hp, hsel',
          metadataReference_setReference, hrow, hlim, prefixThroughNth, hz,
          prefixThroughNth_zero]
      · have hcap2 : (s.Limit - (k + 1) + 1).toNat = (s.Limit - k).toNat := by omega
        have hstep := ih' (some c) (rows ++ [some m]) (k + 1) (by omega) (by omega)
          (by rw [hcap2]; omega) rest
        rw [hcap2] at hstep
        simp [walkReferences.loop, setReference_setReference, hp, hsel',
          metadataReference_setReference, hrow, hlim, prefixThroughNth, hstep]
    · rw [List.filter_cons_of_neg (by simpa using hp)] at hm
      have hstep := ih' (some c) rows k h1 h2 (by rw [hcap]; exact hm) rest
      rw [hcap] at hstep
      simp [walkReferences.loop, setReference_setReference, hp, prefixThroughNth, hstep]

/-- The remote loop, as `iterate_ignores_rest`: the loop has taken its
`break`, whatever names follow, so none of them is passed to `LoadRemote`. -/
theorem remoteLoop_ignores_rest (s : NodeSelect) (fields : List String) (b : GitBuilder)
    (names : List String) (es : List Remote)
    (hload : List.Forall₂ (fun name r => b.repo.LoadRemote name = .ok r) names es)
    (hR : ∀ c ∈ es, s.Where (b.setRemote (some c)) = true →
      ∃ r, remoteRow b fields c = .ok r) :
    ∀ (cur : Option Remote) (rows : List tableRow) (k : Int), 1 ≤ k → k ≤ s.Limit →
      (s.Limit - k + 1).toNat ≤ (es.filter (fun c => s.Where (b.setRemote (some c)))).length →
      ∀ rest : List String,
        walkRemotes.loop s fields
            (names.take (prefixThroughNth (fun c => s.Where (b.setRemote (some c))) es
              (s.Limit - k + 1).toNat).length ++ rest)
            { builder := b.setRemote cur, rows := rows, counter := k } =
          walkRemotes.loop s fields names
            { builder := b.setRemote cur, rows := rows, counter := k } := by
  induction hload with
  | nil =>
    intro cur rows k h1 h2 hm
    simp only [List.filter_nil, List.length_nil] at hm
    omega
  | @cons name c names es hc _ ih =>
    intro cur rows k h1 h2 hm rest
    have hc' : (b.setRemote cur).repo.LoadRemote name = .ok c := hc
    have ih' := ih (fun x hx => hR x (List.mem_cons_of_mem _ hx))
    have hcap : (s.Limit - k + 1).toNat = (s.Limit - k).toNat + 1 := by omega
    rw [hcap] at hm ⊢
    by_cases hp : s.Where (b.setRemote (some c)) = true
    · obtain ⟨r, hr⟩ := hR c (by simp) hp
      obtain ⟨m, hrow, _⟩ := row_ok_some _ fields r hr
      rw [List.filter_cons_of_pos (by simpa using hp), List.length_cons] at hm
      by_cases hlim : k + 1 > s.Limit
      · have hz : (s.Limit - k).toNat = 0 := by omega
        simp [walkRemotes.loop, hc', setRemote_setRemote, hp, metadataRemote_setRemote,
          hrow, hlim, prefixThroughNth, hz, prefixThroughNth_zero]
      · have hcap2 : (s.Limit - (k + 1) + 1).toNat = (s.Limit - k).toNat := by omega
        have hstep := ih' (some c) (rows ++ [some m]) (k + 1) (by omega) (by omega)
          (by rw [hcap2]; omega) rest
        rw [hcap2] at hstep
        simp [walkRemotes.loop, hc', setRemote_setRemote, hp, metadataRemote_setRemote,
          hrow, hlim, prefixThroughNth, hstep]
    · rw [List.filter_cons_of_neg (by simpa using hp)] at hm
      have hstep := ih' (some c) rows k h1 h2 (by rw [hcap]; exact hm) rest
      rw [hcap] at hstep
      simp [walkRemotes.loop, hc', setRemote_setRemote, hp, prefixThroughNth, hstep]

theorem remoteRow_url_ok (c : Remote) :
    ∃ r, remoteRow (boundBuilder "remotes" sampleRepo) ["url"] c = .ok r :=
  ⟨some [("url", c.Url)], rfl⟩

theorem referenceRow_name_ok (c : Reference) :
    ∃ r, referenceRow (boundBuilder "refs" sampleRepo) ["name"] c = .ok r :=
  ⟨some [("name", c.Shorthand)], rfl⟩

/-- C13: for a limit `L ≥ 1`, when the rows of the matching entities extract,
each walker visits exactly the prefix of its sequence that ends at the
`L`-th entity passing the filter, or the whole sequence when fewer than `L`
pass.  For commits the visited commits are those on which `Iterate` calls
the callback `fn`.  For references and remotes the loops the walkers run,
`walkReferences.loop` and `walkRemotes.loop`, are the `for` loop over their
body on every sequence and every state, and the visited entities are those
on which that body runs (for remotes, the names passed to `LoadRemote`).
Once the `L`-th match has been appended the loop has ended: the callback
has returned false and the `for` loops have taken their `break`, so
whatever entities follow the prefix, also ones whose load or extraction
would be fatal, the outcome of the loop is its outcome on the walker's
sequence. -/
theorem walkers_visit_upto_limit (n : NodeProgram) (b : GitBuilder) (fields : List String)
    (hsel : selectFields b n.Child = .ok fields) (hlimit : 1 ≤ n.Child.Limit) :
    ((∀ c ∈ b.repo.Walk, n.Child.Where (b.setCommit (some c)) = true →
        ∃ r, commitRow b fields c = .ok r) →
      ∀ rows : List tableRow,
        Iterate.visited (walkCommits.fn n.Child fields) b.repo.Walk
            { builder := b, rows := rows, counter := 1 } =
          prefixThroughNth (fun c => n.Child.Where (b.setCommit (some c))) b.repo.Walk
            n.Child.Limit.toNat ∧
        Iterate (walkCommits.fn n.Child fields)
            (Iterate.visited (walkCommits.fn n.Child fields) b.repo.Walk
              { builder := b, rows := rows, counter := 1 })
            { builder := b, rows := rows, counter := 1 } =
          Iterate (walkCommits.fn n.Child fields) b.repo.Walk
            { builder := b, rows := rows, counter := 1 } ∧
        (n.Child.Limit.toNat ≤
            (b.repo.Walk.filter (fun c => n.Child.Where (b.setCommit (some c)))).length →
          ∀ rest : List Commit,
            Iterate (walkCommits.fn n.Child fields)
                (prefixThroughNth (fun c => n.Child.Where (b.setCommit (some c))) b.repo.Walk
                  n.Child.Limit.toNat ++ rest)
                { builder := b, rows := rows, counter := 1 } =
              Iterate (walkCommits.fn n.Child fields) b.repo.Walk
                { builder := b, rows := rows, counter := 1 })) ∧
    ((∀ (es : List Reference) (st : WalkVars),
        walkReferences.loop n.Child es st = forRange (walkReferences.body n.Child) es st) ∧
      ∀ refs : List Reference,
        (∀ c ∈ refs, n.Child.Where (b.setReference (some c)) = true →
          ∃ r, referenceRow b fields c = .ok r) →
        ∀ rows : List tableRow,
          forRange.visited (walkReferences.body n.Child) refs
              { builder := b, rows := rows, counter := 1 } =
            prefixThroughNth (fun c => n.Child.Where (b.setReference (some c))) refs
              n.Child.Limit.toNat ∧
          (n.Child.Limit.toNat ≤
              (refs.filter (fun c => n.Child.Where (b.setReference (some c)))).length →
            ∀ rest : List Reference,
              walkReferences.loop n.Child
                  (prefixThroughNth (fun c => n.Child.Where (b.setReference (some c))) refs
                    n.Child.Limit.toNat ++ rest)
                  { builder := b, rows := rows, counter := 1 } =
                walkReferences.loop n.Child refs
                  { builder := b, rows := rows, counter := 1 })) ∧
    ((∀ (names : List String) (st : WalkVars),
        walkRemotes.loop n.Child fields names st =
          forRange (walkRemotes.body n.Child fields) names st) ∧
      ∀ (names : List String) (remotes : List Remote),
        List.Forall₂ (fun name r => b.repo.LoadRemote name = .ok r) names remotes →
        (∀ c ∈ remotes, n.Child.Where (b.setRemote (some c)) = true →
          ∃ r, remoteRow b fields c = .ok r) →
        ∀ rows : List tableRow,
          forRange.visited (walkRemotes.body n.Child fields) names
              { builder := b, rows := rows, counter := 1 } =
            names.take (prefixThroughNth (fun c => n.Child.Where (b.setRemote (some c)))
              remotes n.Child.Limit.toNat).length ∧
          (n.Child.Limit.toNat ≤
              (remotes.filter (fun c => n.Child.Where (b.setRemote (some c)))).length →
            ∀ rest : List String,
              walkRemotes.loop n.Child fields
                  (names.take (prefixThroughNth
                    (fun c => n.Child.Where (b.setRemote (some c)))
                    remotes n.Child.Limit.toNat).length ++ rest)
                  { builder := b, rows := rows, counter := 1 } =
                walkRemotes.loop n.Child fields names
                  { builder := b, rows := rows, counter := 1 })) ∧
    (∀ (α : Type) (p : α → Bool) (es : List α) (m : Nat), 0 < m →
      (∃ rest : List α, es = prefixThroughNth p es m ++ rest) ∧
      ((es.filter p).length < m → prefixThroughNth p es m = es) ∧
      (m ≤ (es.filter p).length →
        ((prefixThroughNth p es m).filter p).length = m ∧
        ∃ (pre : List α) (x : α), prefixThroughNth p es m = pre ++ [x] ∧ p x = true)) := by
  have hcap : (n.Child.Limit - 1 + 1).toNat = n.Child.Limit.toNat := by omega
  refine ⟨?_, ⟨referenceLoop_eq_forRange n.Child, ?_⟩,
    ⟨remoteLoop_eq_forRange n.Child fields, ?_⟩, ?_⟩
  · intro hR rows
    have h := iterate_visited n.Child fields b b.repo.Walk hR b.currentCommit rows 1
      (le_refl 1) hlimit
    have h' := iterate_ignores_rest n.Child fields b b.repo.Walk hR b.currentCommit rows 1
      (le_refl 1) hlimit
    rw [hcap] at h h'
    exact ⟨h, iterate_visited_same _ _ _, h'⟩
  · intro refs hR rows
    have h := referenceBody_visited n.Child fields b hsel refs hR b.currentReference rows 1
      (le_refl 1) hlimit
    have h' := referenceLoop_ignores_rest n.Child fields b hsel refs hR b.currentReference
      rows 1 (le_refl 1) hlimit
    rw [hcap] at h h'
    exact ⟨h, h'⟩
  · intro names remotes hload hR rows
    have h := remoteBody_visited n.Child fields b names remotes hload hR b.currentRemote
      rows 1 (le_refl 1) hlimit
    have h' := remoteLoop_ignores_rest n.Child fields b names remotes hload hR
      b.currentRemote rows 1 (le_refl 1) hlimit
    rw [hcap] at h h'
    exact ⟨h, h'⟩
  · intro α p es m hm
    refine ⟨prefixThroughNth_isPrefix p es m, prefixThroughNth_all p es m, ?_⟩
    intro hle
    refine ⟨?_, prefixThroughNth_ends p es m hm hle⟩
    rw [prefixThroughNth_count]
    omega

/-- Witness of C13: with a limit of 1 and no filter, the commit walk of the
sample repository visits the newest commit only, the reference loop runs
its body on `master` only, and the remote loop has the same outcome on
`origin` followed by `broken`, whose load fails, as on `origin` alone. -/
theorem walkers_visit_upto_limit_witness :
    selectFields (boundBuilder "commits" sampleRepo)
        (plainQuery "commits" ["hash"] 1).Child = .ok ["hash"] ∧
    (1 : Int) ≤ (plainQuery "commits" ["hash"] 1).Child.Limit ∧
    Iterate.visited (walkCommits.fn (plainQuery "commits" ["hash"] 1).Child ["hash"])
        sampleRepo.Walk
        { builder := boundBuilder "commits" sampleRepo, rows := [none], counter := 1 } =
      [sampleCommit "c2" "second\nbody"] ∧
    forRange.visited (walkReferences.body (plainQuery "refs" ["name"] 1).Child)
        [sampleBranch "master", sampleTag "v1"]
        { builder := boundBuilder "refs" sampleRepo, rows := [none], counter := 1 } =
      [sampleBranch "master"] ∧
    sampleRepo.LoadRemote "broken" = .error "remote not found" ∧
    walkRemotes.loop (plainQuery "remotes" ["url"] 1).Child ["url"] ["origin", "broken"]
        { builder := boundBuilder "remotes" sampleRepo, rows := [none], counter := 1 } =
      walkRemotes.loop (plainQuery "remotes" ["url"] 1).Child ["url"] ["origin"]
        { builder := boundBuilder "remotes" sampleRepo, rows := [none], counter := 1 } :=
  ⟨rfl, by decide,
    (((walkers_visit_upto_limit (plainQuery "commits" ["hash"] 1)
      (boundBuilder "commits" sampleRepo) ["hash"] rfl (by decide)).1
      (fun c _ _ => commitRow_hash_ok c) [none]).1).trans rfl,
    (((walkers_visit_upto_limit (plainQuery "refs" ["name"] 1)
      (boundBuilder "refs" sampleRepo) ["name"] rfl (by decide)).2.1.2
      [sampleBranch "master", sampleTag "v1"] (fun c _ _ => referenceRow_name_ok c)
      [none]).1).trans rfl,
    rfl,
    ((walkers_visit_upto_limit (plainQuery "remotes" ["url"] 1)
      (boundBuilder "remotes" sampleRepo) ["url"] rfl (by decide)).2.2.1.2
      ["origin"] [sampleRemote "origin"] (List.Forall₂.cons rfl List.Forall₂.nil)
      (fun c _ _ => remoteRow_url_ok c) [none]).2 (by decide) ["broken"]⟩

/-! ## Queries with an ordering clause -/

/-- The tail of a walker, with any ordering clause, after a loop that
appended the rows `spec` describes. -/
theorem walk_tail_ordered (cmp : Assertions) (fields : List String)
    (order : Option NodeOrder) (b : GitBuilder) (limit : Int)
    (res : Except Failure WalkVars) (spec : Except Failure (List tableRow)) :
    res.map WalkVars.observed =
      spec.map (fun new => (List.replicate limit.toNat none ++ new, 1 + (new.length : Int),
        b.tables, b.possibleTables)) →
    (match res with
      | .error e => .error e
      | .ok st =>
        match sliceFrom st.rows ((st.rows.length : Int) - st.counter + 1) with
        | .error e => .error e
        | .ok rowsSliced =>
          match orderTable cmp st.builder rowsSliced order with
          | .error e => .error e
          | .ok rowsSliced => .ok (printTable rowsSliced fields) :
        Except Failure Printed) =
      (match spec with
        | .error e => .error e
        | .ok new => (orderTable cmp b new order).map (fun rows => printTable rows fields)) := by
  intro h
  cases spec with
  | error e => exact walk_tail_error cmp fields order res e h
  | ok new => exact walk_tail_ok cmp fields order b limit res new h

theorem walkCommits_ordered (cmp : Assertions) (n : NodeProgram) (b : GitBuilder)
    (fields : List String) (hsel : selectFields b n.Child = .ok fields)
    (hlimit : 1 ≤ n.Child.Limit) :
    walkCommits cmp n b =
      (match ((b.repo.Walk.filter (fun c => n.Child.Where (b.setCommit (some c)))).take
          n.Child.Limit.toNat).mapM (commitRow b fields) with
        | .error e => .error e
        | .ok new =>
          (orderTable cmp b new n.Child.Order).map (fun rows => printTable rows fields)) := by
  have hloop := iterate_rows n.Child fields b b.repo.Walk b.currentCommit
    (List.replicate n.Child.Limit.toNat none) 1 (le_refl 1) hlimit
  have hcap : (n.Child.Limit - 1 + 1).toNat = n.Child.Limit.toNat := by omega
  rw [hcap] at hloop
  simp only [walkCommits, hsel, makeRows_ok _ (by omega : (0 : Int) ≤ n.Child.Limit)]
  exact walk_tail_ordered cmp fields n.Child.Order b n.Child.Limit _ _ hloop

theorem walkReferences_ordered (cmp : Assertions) (n : NodeProgram) (b : GitBuilder)
    (fields : List String) (hsel : selectFields b n.Child = .ok fields)
    (hlimit : 1 ≤ n.Child.Limit)
    (refs : List Reference) (hrefs : b.repo.NewReferenceIterator = .ok refs) :
    walkReferences cmp n b =
      (match ((refs.filter (fun c => n.Child.Where (b.setReference (some c)))).take
          n.Child.Limit.toNat).mapM (referenceRow b fields) with
        | .error e => .error e
        | .ok new =>
          (orderTable cmp b new n.Child.Order).map (fun rows => printTable rows fields)) := by
  have hloop := referenceLoop_rows n.Child fields b hsel refs b.currentReference
    (List.replicate n.Child.Limit.toNat none) 1 (le_refl 1) hlimit
  have hcap : (n.Child.Limit - 1 + 1).toNat = n.Child.Limit.toNat := by omega
  rw [hcap] at hloop
  simp only [walkReferences, hrefs, hsel, makeRows_ok _ (by omega : (0 : Int) ≤ n.Child.Limit)]
  exact walk_tail_ordered cmp fields n.Child.Order b n.Child.Limit _ _ hloop

theorem walkRemotes_ordered (cmp : Assertions) (n : NodeProgram) (b : GitBuilder)
    (fields : List String) (hsel : selectFields b n.Child = .ok fields)
    (hlimit : 1 ≤ n.Child.Limit)
    (names : List String) (remotes : List Remote) (hnames : b.repo.ListRemotes = .ok names)
    (hload : List.Forall₂ (fun name r => b.repo.LoadRemote name = .ok r) names remotes) :
    walkRemotes cmp n b =
      (match ((remotes.filter (fun c => n.Child.Where (b.setRemote (some c)))).take
          n.Child.Limit.toNat).mapM (remoteRow b fields) with
        | .error e => .error e
        | .ok new =>
          (orderTable cmp b new n.Child.Order).map (fun rows => printTable rows fields)) := by
  have hloop := remoteLoop_rows n.Child fields b names remotes hload b.currentRemote
    (List.replicate n.Child.Limit.toNat none) 1 (le_refl 1) hlimit
  have hcap : (n.Child.Limit - 1 + 1).toNat = n.Child.Limit.toNat := by omega
  rw [hcap] at hloop
  simp only [walkRemotes, hnames, hsel, makeRows_ok _ (by omega : (0 : Int) ≤ n.Child.Limit)]
  exact walk_tail_ordered cmp fields n.Child.Order b n.Child.Limit _ _ hloop

/-- A walker that equals `spec` followed by the orderer prints, with a valid
ordering clause, a permutation of what it prints without the clause. -/
theorem ordered_of_unordered (cmp : Assertions) (b : GitBuilder) (fields : List String)
    (o : NodeOrder) (hfield : checkField b o.Field = .ok ())
    (spec : Except Failure (List tableRow)) (ordered unordered : Except Failure Printed)
    (hord : ordered =
      (match spec with
        | .error e => .error e
        | .ok new => (orderTable cmp b new (some o)).map (fun rows => printTable rows fields)))
    (hunord : unordered = spec.map (fun rows => printTable rows fields)) :
    (∀ out0, unordered = .ok out0 →
      ∃ out, ordered = .ok out ∧ out.fields = out0.fields ∧
        out.rows.length = out0.rows.length ∧ out.rows.Perm out0.rows) ∧
    (∀ e, unordered = .error e → ordered = .error e) := by
  subst hord hunord
  cases spec with
  | error e =>
    refine ⟨?_, ?_⟩
    · intro out0 h
      cases h
    · intro e' h
      simp only [Except.map, Except.error.injEq] at h
      rw [h]
  | ok new =>
    refine ⟨?_, ?_⟩
    · intro out0 h
      simp only [Except.map, Except.ok.injEq] at h
      subst h
      obtain ⟨sorted, hsorted, hperm⟩ := orderTable_ok cmp b new (some o)
        (fun o' ho => by cases ho; exact hfield)
      refine ⟨printTable sorted fields, ?_, rfl, hperm.length_eq, hperm⟩
      simp only [hsorted]
      rfl
    · intro e h
      cases h

/-- C12: `orderTable` only reorders.  For every builder on which the
ordering field passes the field check, every row list and every comparison,
it returns a list of the same length that is a permutation of its input.
Hence, for a limit `L ≥ 1`, each walker prints for a query with a valid
ordering clause the same columns and a permutation of the rows it prints
for the same query without the clause (the rows of the first `L` matches in
walker order), and fails where that query fails. -/
theorem orderTable_only_reorders (cmp : Assertions) :
    (∀ (g : GitBuilder) (rows : List tableRow) (o' : NodeOrder),
      checkField g o'.Field = .ok () →
      ∃ out, orderTable cmp g rows (some o') = .ok out ∧ out.length = rows.length ∧
        out.Perm rows) ∧
    ∀ (n : NodeProgram) (b : GitBuilder) (fields : List String) (o : NodeOrder),
    selectFields b n.Child = .ok fields → 1 ≤ n.Child.Limit →
    n.Child.Order = some o → checkField b o.Field = .ok () →
    ((∀ out0, walkCommits cmp n.withoutOrder b = .ok out0 →
        ∃ out, walkCommits cmp n b = .ok out ∧ out.fields = out0.fields ∧
          out.rows.length = out0.rows.length ∧ out.rows.Perm out0.rows) ∧
      (∀ e, walkCommits cmp n.withoutOrder b = .error e → walkCommits cmp n b = .error e)) ∧
    (∀ refs, b.repo.NewReferenceIterator = .ok refs →
      (∀ out0, walkReferences cmp n.withoutOrder b = .ok out0 →
        ∃ out, walkReferences cmp n b = .ok out ∧ out.fields = out0.fields ∧
          out.rows.length = out0.rows.length ∧ out.rows.Perm out0.rows) ∧
      (∀ e, walkReferences cmp n.withoutOrder b = .error e →
        walkReferences cmp n b = .error e)) ∧
    (∀ names remotes, b.repo.ListRemotes = .ok names →
      List.Forall₂ (fun name r => b.repo.LoadRemote name = .ok r) names remotes →
      (∀ out0, walkRemotes cmp n.withoutOrder b = .ok out0 →
        ∃ out, walkRemotes cmp n b = .ok out ∧ out.fields = out0.fields ∧
          out.rows.length = out0.rows.length ∧ out.rows.Perm out0.rows) ∧
      (∀ e, walkRemotes cmp n.withoutOrder b = .error e →
        walkRemotes cmp n b = .error e)) := by
  refine ⟨?_, ?_⟩
  · intro g rows o' ho'
    obtain ⟨out, hout, hperm⟩ := orderTable_ok cmp g rows (some o')
      (fun o'' ho => by cases ho; exact ho')
    exact ⟨out, hout, hperm.length_eq, hperm⟩
  intro n b fields o hsel hlimit horder hfield
  have hsel0 : selectFields b n.withoutOrder.Child = .ok fields := hsel
  have hlimit0 : 1 ≤ n.withoutOrder.Child.Limit := hlimit
  refine ⟨?_, ?_, ?_⟩
  · have h1 := walkCommits_ordered cmp n b fields hsel hlimit
    rw [horder] at h1
    exact ordered_of_unordered cmp b fields o hfield _ _ _ h1
      (walkCommits_first_matches cmp n.withoutOrder b fields hsel0 rfl hlimit0)
  · intro refs hrefs
    have h1 := walkReferences_ordered cmp n b fields hsel hlimit refs hrefs
    rw [horder] at h1
    exact ordered_of_unordered cmp b fields o hfield _ _ _ h1
      (walkReferences_first_matches cmp n.withoutOrder b fields hsel0 rfl hlimit0 refs hrefs)
  · intro names remotes hnames hload
    have h1 := walkRemotes_ordered cmp n b fields hsel hlimit names remotes hnames hload
    rw [horder] at h1
    exact ordered_of_unordered cmp b fields o hfield _ _ _ h1
      (walkRemotes_first_matches cmp n.withoutOrder b fields hsel0 rfl hlimit0 names remotes
        hnames hload)

/-- Witness of C12: `select hash from commits order by hash limit 2` prints a
permutation of the two rows that the query prints without the clause. -/
theorem orderTable_only_reorders_witness :
    ∃ out, walkCommits stringAssertions (orderedQuery "commits" ["hash"] "hash" true 2)
        (boundBuilder "commits" sampleRepo) = .ok out ∧
      out.fields = ["hash"] ∧ out.rows.length = 2 ∧
      out.rows.Perm [some [("hash", "c2")], some [("hash", "c1")]] :=
  (((orderTable_only_reorders stringAssertions).2
    (orderedQuery "commits" ["hash"] "hash" true 2)
    (boundBuilder "commits" sampleRepo) ["hash"] { Field := "hash", Asc := true }
    rfl (by decide) rfl rfl).1.1
    { rows := [some [("hash", "c2")], some [("hash", "c1")]], fields := ["hash"] } rfl)

end Gitql
